import Mathlib

/-! rbsmoke: a shallow embedding of `render.go`.

The Go program grows an image one pixel at a time from the canvas centre,
taking colours from a hue-sorted palette.  This file embeds the functions of
`render.go` as Lean definitions and proves (or refutes) properties of them.

Conventions of the embedding:

* Go `int` values are `Int`/`Nat`; `uint8` values are `Nat` taken modulo 256
  wherever the Go arithmetic wraps.
* Go `float64` hues are exact rationals.
* A runtime panic is an error result (`none` / `Except.error`).
* `sort.Slice` belongs to the Go standard library.  It enters as a parameter
  `SliceSorter`: any function that returns a permutation of its input, ordered
  by `less` whenever `less` is a strict weak ordering.  Which of several equal
  elements comes first is left open, exactly as in the Go documentation
  ("the sort is not guaranteed to be stable").
-/

namespace RbSmoke

/-! ## `image.Point`, `image.Rectangle` -/

/-- Go `image.Point`: an X, Y coordinate pair. -/
structure Point where
  X : Int
  Y : Int
deriving DecidableEq

/-- Go `image.Pt`. -/
def Pt (x y : Int) : Point := ⟨x, y⟩

/-- Go `Point.Add`. -/
def Point.Add (p q : Point) : Point := ⟨p.X + q.X, p.Y + q.Y⟩

/-- Go `image.Rectangle`: the points with `Min.X ≤ X < Max.X`, `Min.Y ≤ Y < Max.Y`. -/
structure Rectangle where
  Min : Point
  Max : Point
deriving DecidableEq

/-- Go `image.Rect`: the rectangle with the given corners, put in canonical order. -/
def Rect (x0 y0 x1 y1 : Int) : Rectangle :=
  ⟨⟨min x0 x1, min y0 y1⟩, ⟨max x0 x1, max y0 y1⟩⟩

/-- Go `Point.In`. -/
def Point.In (p : Point) (r : Rectangle) : Bool :=
  decide (r.Min.X ≤ p.X) && decide (p.X < r.Max.X) &&
    decide (r.Min.Y ≤ p.Y) && decide (p.Y < r.Max.Y)

/-! ## `color.NRGBA`, `image.NRGBA` -/

/-- Go `color.NRGBA`: four 8-bit channels, kept as naturals below 256. -/
structure NRGBA where
  R : Nat
  G : Nat
  B : Nat
  A : Nat
deriving DecidableEq

/-- The zero value of `color.NRGBA`, which is what a fresh image holds everywhere. -/
def NRGBA.zero : NRGBA := ⟨0, 0, 0, 0⟩

/-- All four channels are 8-bit values. -/
def NRGBA.Valid (c : NRGBA) : Prop := c.R < 256 ∧ c.G < 256 ∧ c.B < 256 ∧ c.A < 256

/-- Go `image.NRGBA`, with `Pix` kept at pixel (not byte) granularity: pixel
`(x, y)` is at index `(y - Rect.Min.Y) * Stride + (x - Rect.Min.X)`. -/
structure Image where
  Pix : List NRGBA
  Stride : Nat
  Rect : Rectangle
deriving DecidableEq

/-- Go `image.NewNRGBA`: a zeroed image with the given bounds. -/
def NewNRGBA (r : Rectangle) : Image :=
  let w := (r.Max.X - r.Min.X).toNat
  let h := (r.Max.Y - r.Min.Y).toNat
  { Pix := List.replicate (w * h) NRGBA.zero, Stride := w, Rect := r }

/-- Go `(*NRGBA).PixOffset`, at pixel granularity. -/
def Image.PixOffset (img : Image) (x y : Int) : Nat :=
  ((y - img.Rect.Min.Y) * (img.Stride : Int) + (x - img.Rect.Min.X)).toNat

/-- Go `(*NRGBA).NRGBAAt`: the zero colour outside the bounds. -/
def Image.NRGBAAt (img : Image) (x y : Int) : NRGBA :=
  if !(Pt x y).In img.Rect then NRGBA.zero
  else img.Pix.getD (img.PixOffset x y) NRGBA.zero

/-- Go `(*NRGBA).SetNRGBA`: does nothing outside the bounds. -/
def Image.SetNRGBA (img : Image) (x y : Int) (c : NRGBA) : Image :=
  if !(Pt x y).In img.Rect then img
  else { img with Pix := img.Pix.set (img.PixOffset x y) c }

/-! ## `sort.Slice` -/

/-- The requirement Go puts on a `less` function: a strict weak ordering. -/
structure StrictWeak {α : Type} (less : α → α → Bool) : Prop where
  irrefl : ∀ a, less a a = false
  trans : ∀ a b c, less a b = true → less b c = true → less a c = true
  negTrans : ∀ a b c, less a b = false → less b c = false → less a c = false

/-- An implementation of Go `sort.Slice` together with its contract: the result
is a rearrangement of the input, and it is ordered (no later element is `less`
than an earlier one) whenever `less` is a strict weak ordering. -/
structure SliceSorter where
  sort : {α : Type} → (α → α → Bool) → List α → List α
  perm : ∀ {α : Type} (less : α → α → Bool) (l : List α), (sort less l).Perm l
  sorted : ∀ {α : Type} (less : α → α → Bool) (l : List α), StrictWeak less →
    (sort less l).Pairwise (fun a b => less b a = false)

/-! ## The functions of `render.go` -/

/-- Go `MakeColour`: `uint8((c * 255) / (colours - 1))`.  Integer division
truncates, a zero divisor panics (`none`), and the conversion to `uint8` keeps
the low eight bits. -/
def MakeColour (c colours : Int) : Option Nat :=
  if colours - 1 = 0 then none
  else some (((c * 255).tdiv (colours - 1)) % 256).toNat

/-- Go `MakeNRGBA`. -/
def MakeNRGBA (r g b colours : Int) : Option NRGBA := do
  let r' ← MakeColour r colours
  let g' ← MakeColour g colours
  let b' ← MakeColour b colours
  pure ⟨r', g', b', 255⟩

/-- Go `ColourDiff`.  Each channel difference is computed in `uint8`, so it
wraps modulo 256 before it is widened to `int`. -/
def ColourDiff (a b : NRGBA) : Int :=
  let rdiff : Int := ((a.R : Int) - (b.R : Int)) % 256
  let gdiff : Int := ((a.G : Int) - (b.G : Int)) % 256
  let bdiff : Int := ((a.B : Int) - (b.B : Int)) % 256
  rdiff * rdiff + gdiff * gdiff + bdiff * bdiff

/-- Go `Hue`, with `float64` read as exact rationals. -/
def Hue (a : NRGBA) : ℚ :=
  let mm : Nat × Nat := if a.R < a.G then (a.R, a.G) else (a.G, a.R)
  let mm : Nat × Nat :=
    if a.B < mm.1 then (a.B, mm.2) else if a.B > mm.2 then (mm.1, a.B) else mm
  let min := mm.1
  let max := mm.2
  let hue : ℚ :=
    if max ≠ min then
      if max = a.R then ((a.G : ℚ) - (a.B : ℚ)) / ((max - min : Nat) : ℚ)
      else if max = a.G then 2 + ((a.B : ℚ) - (a.R : ℚ)) / ((max - min : Nat) : ℚ)
      else 4 + ((a.R : ℚ) - (a.G : ℚ)) / ((max - min : Nat) : ℚ)
    else 0
  let hue := hue * 60
  if hue < 0 then hue + 360 else hue

/-- The pairs `(x, y)` visited by `for x := -1; x <= +1; x++ { for y := -1; y <= +1; y++ {..} }`,
in the order of the loops. -/
def offsets : List (Int × Int) :=
  [-1, 0, 1].flatMap fun x => [-1, 0, 1].map fun y => (x, y)

/-- Go `ColourFitness`, reading the global image `img`. -/
def ColourFitness (img : Image) (pixel : NRGBA) (pos : Point) : Int :=
  offsets.foldl (fun diff xy =>
    let new_pt := pos.Add (Pt xy.1 xy.2)
    if !(xy.1 == 0 && xy.2 == 0) && new_pt.In img.Rect then
      diff + ColourDiff pixel (img.NRGBAAt new_pt.X new_pt.Y)
    else diff) 0

/-- The triples `(r, g, b)` visited by the three nested loops
`for r := 0; r <= colours; r++ { for g ... { for b ... } }`, in loop order. -/
def triples (colours : Nat) : List (Nat × Nat × Nat) :=
  (List.range (colours + 1)).flatMap fun r =>
    (List.range (colours + 1)).flatMap fun g =>
      (List.range (colours + 1)).map fun b => (r, g, b)

/-- The palette before sorting: one `append` of `MakeNRGBA(r, g, b, colours)`
per triple.  It panics when `MakeColour` does. -/
def enumerate (colours : Nat) : Option (List NRGBA) :=
  (triples colours).mapM fun t => MakeNRGBA t.1 t.2.1 t.2.2 colours

/-- The comparison handed to `sort.Slice` for the palette. -/
def hueLess (a b : NRGBA) : Bool := decide (Hue a < Hue b)

/-- The palette `colour_list` of `Render` after `sort.Slice`. -/
def colour_list (srt : SliceSorter) (colours : Nat) : Option (List NRGBA) :=
  (enumerate colours).map fun l => srt.sort hueLess l

/-! ## The growth loop -/

/-- Go `map[image.Point]int`, as an association list with distinct keys. -/
abbrev PointMap := List (Point × Nat)

/-- `_, present := m[k]`. -/
def mapHas (m : PointMap) (k : Point) : Bool := m.any fun e => e.1 == k

/-- `m[k] = v`. -/
def mapSet (m : PointMap) (k : Point) (v : Nat) : PointMap :=
  (m.filter fun e => !(e.1 == k)) ++ [(k, v)]

/-- `delete(m, k)`. -/
def mapDelete (m : PointMap) (k : Point) : PointMap := m.filter fun e => !(e.1 == k)

/-- The mutable state of `Render`: the global image `img`, the global slice
`unfilled`, the local map `unfilled_map`, and a history variable `trace` that
records the argument of every `img.SetNRGBA` call, oldest first (the code does
not read it). -/
structure State where
  img : Image
  unfilled : List Point
  unfilled_map : PointMap
  trace : List Point
deriving DecidableEq

/-- The "discard point" statements: swap the first and the last element of the
slice, then drop the last one. -/
def discardFirst (u : List Point) : List Point :=
  match u.head?, u.getLast? with
  | some first, some last => ((u.set (u.length - 1) first).set 0 last).take (u.length - 1)
  | _, _ => u

/-- The comparison handed to `sort.Slice` for the frontier: fitness, descending. -/
def fitnessMore (img : Image) (c : NRGBA) (p q : Point) : Bool :=
  decide (ColourFitness img c p > ColourFitness img c q)

/-- The body of the expansion loop for one offset `(x, y)`: the neighbour
`curr_pt + (x, y)` is appended to `unfilled` and entered in the map when it is
not a key of the map, is not `curr_pt` itself and lies inside the image. -/
def expandStep (img : Image) (curr_pt : Point) (um : List Point × PointMap) (xy : Int × Int) :
    List Point × PointMap :=
  let new_pt := curr_pt.Add (Pt xy.1 xy.2)
  if !(mapHas um.2 new_pt) && !(xy.1 == 0 && xy.2 == 0) && new_pt.In img.Rect then
    (um.1 ++ [new_pt], mapSet um.2 new_pt um.1.length)
  else um

/-- The expansion loop at the end of an iteration, over the eight neighbours of
`curr_pt` (and `curr_pt` itself, which the body skips). -/
def expand (img : Image) (curr_pt : Point) (u : List Point) (m : PointMap) :
    List Point × PointMap :=
  offsets.foldl (expandStep img curr_pt) (u, m)

/-- One iteration `i` of the loop of `Render`.  When `i` is past the end of the
palette, `colour_list[i]` panics (`none`): in the comparison function of the
sort or, at the latest, as the argument of `img.SetNRGBA`, so in either case
before the image is written. -/
def iteration (srt : SliceSorter) (colour_list : List NRGBA) (start_pt : Point)
    (i : Nat) (s : State) : Option State :=
  match colour_list[i]? with
  | none => none
  | some c =>
    let sel : Point × List Point × PointMap :=
      if s.unfilled.length = 0 then (start_pt, s.unfilled, s.unfilled_map)
      else
        let sorted := srt.sort (fitnessMore s.img c) s.unfilled
        let curr_pt := sorted.headD start_pt
        (curr_pt, discardFirst sorted, mapDelete s.unfilled_map curr_pt)
    let curr_pt := sel.1
    let img := s.img.SetNRGBA curr_pt.X curr_pt.Y c
    let um := expand img curr_pt sel.2.1 sel.2.2
    some { img := img, unfilled := um.1, unfilled_map := um.2, trace := s.trace ++ [curr_pt] }

/-- The state after the first `n` iterations of the loop (`none` if one of
them panicked). -/
def growth (srt : SliceSorter) (colour_list : List NRGBA) (start_pt : Point) (s0 : State) :
    Nat → Option State
  | 0 => some s0
  | n + 1 => (growth srt colour_list start_pt s0 n).bind (iteration srt colour_list start_pt n)

/-- The two runtime panics `Render` can raise. -/
inductive Panic where
  | divideByZero
  | indexOutOfRange
deriving DecidableEq

deriving instance DecidableEq for Except

/-- The seed point of `Render`: `start_pt := image.Pt(x_size / 2, y_size / 2)`. -/
def seedPt (x_size y_size : Nat) : Point :=
  Pt ((x_size / 2 : Nat) : Int) ((y_size / 2 : Nat) : Int)

/-- The state in which the loop of `Render` starts. -/
def initState (x_size y_size : Nat) : State :=
  { img := NewNRGBA (Rect 0 0 x_size y_size), unfilled := [], unfilled_map := [], trace := [] }

/-- Go `Render` with its loop cut off after `n` iterations: the state at the
`n`-th iteration boundary. -/
def RenderUpTo (srt : SliceSorter) (x_size y_size colours n : Nat) : Except Panic State :=
  match colour_list srt colours with
  | none => .error .divideByZero
  | some colour_list =>
    let start_pt := seedPt x_size y_size
    match growth srt colour_list start_pt (initState x_size y_size) n with
    | none => .error .indexOutOfRange
    | some s => .ok s

/-- Go `Render`, up to the point where the image is handed to the PNG encoder:
the loop runs `x_size * y_size` iterations. -/
def Render (srt : SliceSorter) (x_size y_size colours : Nat) : Except Panic State :=
  RenderUpTo srt x_size y_size colours (x_size * y_size)

/-! ## A reference `sort.Slice`: stable insertion sort -/

/-- The ordering "not after" induced by `less`. -/
def notAfter {α : Type} (less : α → α → Bool) (a b : α) : Prop := less b a = false

instance {α : Type} (less : α → α → Bool) : DecidableRel (notAfter less) :=
  fun a b => inferInstanceAs (Decidable (less b a = false))

/-- Stable insertion sort: one implementation that meets the contract of
`sort.Slice`.  The concrete runs below are evaluated with it. -/
def stableSorter : SliceSorter where
  sort less l := List.insertionSort (notAfter less) l
  perm less l := List.perm_insertionSort (notAfter less) l
  sorted less l h := by
    haveI : IsTotal _ (notAfter less) := ⟨fun a b => by
      unfold notAfter
      cases hab : less a b
      · exact Or.inr rfl
      · cases hba : less b a
        · exact Or.inl rfl
        · have := h.trans a b a hab hba
          rw [h.irrefl a] at this
          exact absurd this (by decide)⟩
    haveI : IsTrans _ (notAfter less) := ⟨fun a b c hab hbc => h.negTrans c b a hbc hab⟩
    exact List.sorted_insertionSort (notAfter less) l

/-- The palette of depth 2 in the order the stable sort gives it. -/
def stablePalette2 : List NRGBA :=
  [⟨0, 0, 0, 255⟩, ⟨255, 0, 0, 255⟩, ⟨255, 255, 255, 255⟩, ⟨255, 254, 254, 255⟩,
   ⟨254, 0, 0, 255⟩, ⟨254, 254, 254, 255⟩, ⟨255, 254, 0, 255⟩, ⟨255, 255, 0, 255⟩,
   ⟨255, 255, 254, 255⟩, ⟨254, 254, 0, 255⟩, ⟨254, 255, 0, 255⟩, ⟨0, 255, 0, 255⟩,
   ⟨0, 254, 0, 255⟩, ⟨254, 255, 254, 255⟩, ⟨0, 255, 254, 255⟩, ⟨0, 255, 255, 255⟩,
   ⟨0, 254, 254, 255⟩, ⟨254, 255, 255, 255⟩, ⟨0, 254, 255, 255⟩, ⟨0, 0, 255, 255⟩,
   ⟨0, 0, 254, 255⟩, ⟨254, 254, 255, 255⟩, ⟨254, 0, 255, 255⟩, ⟨255, 0, 255, 255⟩,
   ⟨255, 254, 255, 255⟩, ⟨254, 0, 254, 255⟩, ⟨255, 0, 254, 255⟩]

/-! ## Every outcome `sort.Slice` allows -/

/-- All ways to insert `a` into a list. -/
def insertEverywhere {α : Type} (a : α) : List α → List (List α)
  | [] => [[a]]
  | b :: l => (a :: b :: l) :: (insertEverywhere a l).map (b :: ·)

/-- All rearrangements of a list. -/
def perms {α : Type} : List α → List (List α)
  | [] => [[]]
  | a :: l => (perms l).flatMap (insertEverywhere a)

/-- No element of the list is `less` than an earlier one. -/
def isOrdered {α : Type} (less : α → α → Bool) : List α → Bool
  | [] => true
  | a :: l => l.all (fun b => !(less b a)) && isOrdered less l

/-- Every list `sort.Slice` may leave behind: the ordered rearrangements of the input. -/
def sortResults {α : Type} (less : α → α → Bool) (u : List α) : List (List α) :=
  (perms u).filter (isOrdered less)

/-- The body of one iteration with colour `c`, given the slice `sorted` that
`sort.Slice` left behind (it is not looked at when the frontier is empty). -/
def stepWith (c : NRGBA) (start_pt : Point) (s : State) (sorted : List Point) : State :=
  let sel : Point × List Point × PointMap :=
    if s.unfilled.length = 0 then (start_pt, s.unfilled, s.unfilled_map)
    else
      let curr_pt := sorted.headD start_pt
      (curr_pt, discardFirst sorted, mapDelete s.unfilled_map curr_pt)
  let curr_pt := sel.1
  let img := s.img.SetNRGBA curr_pt.X curr_pt.Y c
  let um := expand img curr_pt sel.2.1 sel.2.2
  { img := img, unfilled := um.1, unfilled_map := um.2, trace := s.trace ++ [curr_pt] }

/-- Every state the loop can reach by consuming the colours `cs` in order,
over all the results `sort.Slice` may give in each iteration. -/
def outcomes (start_pt : Point) : List NRGBA → State → List State
  | [], s => [s]
  | c :: cs, s =>
    (sortResults (fitnessMore s.img c) s.unfilled).flatMap fun sorted =>
      outcomes start_pt cs (stepWith c start_pt s sorted)

/-- The cells of an `x` by `y` canvas. -/
def canvasPoints (x y : Nat) : List Point :=
  (List.range x).flatMap fun i => (List.range y).map fun j => Pt (i : Int) (j : Int)

/-- Some cell of the canvas was passed to `SetNRGBA` at least twice, and some
cell still holds the zero colour of a fresh image. -/
def failsToFill (x y : Nat) (s : State) : Bool :=
  ((canvasPoints x y).any fun p => decide (2 ≤ s.trace.count p)) &&
    ((canvasPoints x y).any fun q => decide (s.img.NRGBAAt q.X q.Y = NRGBA.zero))

/-- The six colours of hue 0 in the palette of depth 2. -/
def hueZero2 : List NRGBA :=
  [⟨0, 0, 0, 255⟩, ⟨255, 0, 0, 255⟩, ⟨255, 255, 255, 255⟩, ⟨255, 254, 254, 255⟩,
   ⟨254, 0, 0, 255⟩, ⟨254, 254, 254, 255⟩]

/-! ## The formulas of the specification, for comparison -/

/-- The spec's formula for a channel level: `round(k * 255 / D)`. -/
def roundedLevel (k D : Nat) : Int := round (((k : ℚ) * 255) / (D : ℚ))

/-- The spec's formula for the distance: the sum of the squared channel differences. -/
def sumSquaredDiff (a b : NRGBA) : Int :=
  ((a.R : Int) - b.R) ^ 2 + ((a.G : Int) - b.G) ^ 2 + ((a.B : Int) - b.B) ^ 2

/-! ## Predicates used in the statements -/

/-- The point `q` is reached from `p` by one of the offsets in `offs` other than
`(0, 0)`, and lies inside the image: with `offs = offsets`, `q` is an in-bounds
8-neighbour of `p`. -/
def Reaches (img : Image) (p : Point) (offs : List (Int × Int)) (q : Point) : Prop :=
  ∃ xy ∈ offs, (xy.1 == 0 && xy.2 == 0) = false ∧
    (p.Add (Pt xy.1 xy.2)).In img.Rect = true ∧ q = p.Add (Pt xy.1 xy.2)

/-- The image has the geometry `Render` gives it: bounds `(0,0)-(x,y)`, stride
`x` and `x * y` pixels. -/
def Image.Sized (img : Image) (x y : Nat) : Prop :=
  img.Rect = RbSmoke.Rect 0 0 x y ∧ img.Stride = x ∧ img.Pix.length = x * y

/-- A cell counts as coloured once a palette colour (alpha 255) has been written to it;
a fresh image holds alpha 0 everywhere. -/
def Coloured (img : Image) (p : Point) : Prop := (img.NRGBAAt p.X p.Y).A = 255

instance (c : NRGBA) : Decidable c.Valid :=
  inferInstanceAs (Decidable (c.R < 256 ∧ c.G < 256 ∧ c.B < 256 ∧ c.A < 256))

instance (img : Image) (p : Point) (offs : List (Int × Int)) (q : Point) :
    Decidable (Reaches img p offs q) :=
  inferInstanceAs (Decidable (∃ xy ∈ offs, (xy.1 == 0 && xy.2 == 0) = false ∧
    (p.Add (Pt xy.1 xy.2)).In img.Rect = true ∧ q = p.Add (Pt xy.1 xy.2)))

instance (img : Image) (x y : Nat) : Decidable (img.Sized x y) :=
  inferInstanceAs (Decidable (img.Rect = RbSmoke.Rect 0 0 x y ∧ img.Stride = x ∧
    img.Pix.length = x * y))

instance (img : Image) (p : Point) : Decidable (Coloured img p) :=
  inferInstanceAs (Decidable ((img.NRGBAAt p.X p.Y).A = 255))

/-! ## Further definitions: hue, fitness, the frontier invariant -/

/-- The largest channel of a colour. -/
def chanMax (a : NRGBA) : Nat := max (max a.R a.G) a.B

/-- The smallest channel of a colour. -/
def chanMin (a : NRGBA) : Nat := min (min a.R a.G) a.B

/-- The last step of `Hue`: a negative value is raised by 360. -/
def normalise (h : ℚ) : ℚ := if h < 0 then h + 360 else h

/-- The body of the loop of `ColourFitness` for one offset `(x, y)`. -/
def fitnessStep (img : Image) (pixel : NRGBA) (pos : Point) (diff : Int) (xy : Int × Int) : Int :=
  let new_pt := pos.Add (Pt xy.1 xy.2)
  if !(xy.1 == 0 && xy.2 == 0) && new_pt.In img.Rect then
    diff + ColourDiff pixel (img.NRGBAAt new_pt.X new_pt.Y)
  else diff

/-- The eight neighbours of a point, in the order of the loops. -/
def neighbours (p : Point) : List Point :=
  (offsets.filter fun xy => !(xy.1 == 0 && xy.2 == 0)).map fun xy => p.Add (Pt xy.1 xy.2)

/-- The spec's formula for the fitness: the sum of `ColourDiff` over the
neighbours that are in-bounds and already coloured. -/
def fitnessOverColoured (img : Image) (c : NRGBA) (p : Point) : Int :=
  (((neighbours p).filter fun q => q.In img.Rect && decide (Coloured img q)).map
    fun q => ColourDiff c (img.NRGBAAt q.X q.Y)).sum

/-- What holds of the state at every iteration boundary of the loop on an `x`
by `y` canvas: the image keeps its geometry; `unfilled` has no duplicates and
its members are the keys of `unfilled_map`; they and the written points are
in-bounds; every in-bounds neighbour of a written point is a key of the map or
was written itself; and once something was written on a canvas of at least two
cells, `unfilled` is not empty. -/
structure FrontierInv (x y : Nat) (s : State) : Prop where
  sized : s.img.Sized x y
  nodup : s.unfilled.Nodup
  agree : ∀ q, q ∈ s.unfilled ↔ mapHas s.unfilled_map q = true
  inBounds : ∀ q ∈ s.unfilled, q.In s.img.Rect = true
  traceIn : ∀ p ∈ s.trace, p.In s.img.Rect = true
  complete : ∀ w ∈ s.trace, ∀ q, Reaches s.img w offsets q →
    mapHas s.unfilled_map q = true ∨ q ∈ s.trace
  nonempty : s.trace ≠ [] → 2 ≤ x * y → s.unfilled ≠ []

/-- The eight neighbours of the seed `(1,1)` of a 3x3 canvas, in the order in
which the first expansion appends them. -/
def seedNeighbours33 : List Point :=
  [Pt 0 0, Pt 0 1, Pt 0 2, Pt 1 0, Pt 1 2, Pt 2 0, Pt 2 1, Pt 2 2]

/-! ## The map -/

theorem mapHas_nil (q : Point) : mapHas [] q = false := rfl

theorem mapHas_mapSet (m : PointMap) (k : Point) (v : Nat) (q : Point) :
    mapHas (mapSet m k v) q = true ↔ q = k ∨ mapHas m q = true := by
  simp only [mapHas, mapSet, List.any_append, List.any_filter, List.any_eq_true, Bool.or_eq_true,
    List.any_cons, List.any_nil, Bool.or_false, beq_iff_eq, Bool.and_eq_true, Bool.not_eq_true',
    beq_eq_false_iff_ne]
  constructor
  · rintro (⟨e, he, _, h⟩ | h)
    · exact Or.inr ⟨e, he, h⟩
    · exact Or.inl h.symm
  · rintro (h | ⟨e, he, h⟩)
    · exact Or.inr h.symm
    · by_cases hk : q = k
      · exact Or.inr hk.symm
      · exact Or.inl ⟨e, he, by rw [h]; exact hk, h⟩

theorem mapHas_mapDelete (m : PointMap) (k q : Point) :
    mapHas (mapDelete m k) q = true ↔ q ≠ k ∧ mapHas m q = true := by
  simp only [mapHas, mapDelete, List.any_filter, List.any_eq_true, beq_iff_eq, Bool.and_eq_true,
    Bool.not_eq_true', beq_eq_false_iff_ne]
  constructor
  · rintro ⟨e, he, h1, h2⟩
    exact ⟨by rw [← h2]; exact h1, e, he, h2⟩
  · rintro ⟨h1, e, he, h2⟩
    exact ⟨e, he, by rw [h2]; exact h1, h2⟩

/-! ## The expansion loop -/

theorem expandStep_has (img : Image) (p : Point) (um : List Point × PointMap) (xy : Int × Int)
    (q : Point) :
    mapHas (expandStep img p um xy).2 q = true ↔
      mapHas um.2 q = true ∨ Reaches img p [xy] q := by
  unfold expandStep Reaches
  simp only [List.mem_singleton, exists_eq_left]
  by_cases hc : (!(mapHas um.2 (p.Add (Pt xy.1 xy.2))) && !(xy.1 == 0 && xy.2 == 0) &&
      (p.Add (Pt xy.1 xy.2)).In img.Rect) = true
  · rw [if_pos hc]
    simp only [Bool.and_eq_true, Bool.not_eq_true'] at hc
    rw [mapHas_mapSet]
    constructor
    · rintro (h | h)
      · exact Or.inr ⟨hc.1.2, hc.2, h⟩
      · exact Or.inl h
    · rintro (h | ⟨_, _, h⟩)
      · exact Or.inr h
      · exact Or.inl h
  · rw [if_neg hc]
    constructor
    · exact Or.inl
    · rintro (h | ⟨h1, h2, h3⟩)
      · exact h
      · by_contra hq
        apply hc
        simp only [Bool.and_eq_true, Bool.not_eq_true']
        refine ⟨⟨?_, h1⟩, h2⟩
        rw [← h3]
        exact Bool.eq_false_iff.mpr hq

theorem expandStep_mem (img : Image) (p : Point) (um : List Point × PointMap) (xy : Int × Int)
    (q : Point) :
    q ∈ (expandStep img p um xy).1 ↔
      q ∈ um.1 ∨ (mapHas um.2 q = false ∧ Reaches img p [xy] q) := by
  unfold expandStep Reaches
  simp only [List.mem_singleton, exists_eq_left]
  by_cases hc : (!(mapHas um.2 (p.Add (Pt xy.1 xy.2))) && !(xy.1 == 0 && xy.2 == 0) &&
      (p.Add (Pt xy.1 xy.2)).In img.Rect) = true
  · rw [if_pos hc]
    simp only [Bool.and_eq_true, Bool.not_eq_true'] at hc
    simp only [List.mem_append, List.mem_singleton]
    constructor
    · rintro (h | h)
      · exact Or.inl h
      · exact Or.inr ⟨by rw [h]; exact hc.1.1, hc.1.2, hc.2, h⟩
    · rintro (h | ⟨_, _, _, h⟩)
      · exact Or.inl h
      · exact Or.inr h
  · rw [if_neg hc]
    constructor
    · exact Or.inl
    · rintro (h | ⟨h0, h1, h2, h3⟩)
      · exact h
      · exfalso
        apply hc
        simp only [Bool.and_eq_true, Bool.not_eq_true']
        exact ⟨⟨by rw [← h3]; exact h0, h1⟩, h2⟩

theorem Reaches_cons (img : Image) (p : Point) (xy : Int × Int) (offs : List (Int × Int))
    (q : Point) :
    Reaches img p (xy :: offs) q ↔ Reaches img p [xy] q ∨ Reaches img p offs q := by
  unfold Reaches
  simp only [List.mem_cons, List.mem_singleton, exists_eq_left, List.not_mem_nil, or_false]
  constructor
  · rintro ⟨z, (rfl | hz), h⟩
    · exact Or.inl h
    · exact Or.inr ⟨z, hz, h⟩
  · rintro (h | ⟨z, hz, h⟩)
    · exact ⟨xy, Or.inl rfl, h⟩
    · exact ⟨z, Or.inr hz, h⟩

theorem foldl_expandStep_has (img : Image) (p : Point) (offs : List (Int × Int))
    (um : List Point × PointMap) (q : Point) :
    mapHas (offs.foldl (expandStep img p) um).2 q = true ↔
      mapHas um.2 q = true ∨ Reaches img p offs q := by
  induction offs generalizing um with
  | nil => simp [Reaches]
  | cons xy offs ih =>
    rw [List.foldl_cons, ih, expandStep_has, Reaches_cons img p xy offs q, or_assoc]

theorem foldl_expandStep_mem (img : Image) (p : Point) (offs : List (Int × Int))
    (um : List Point × PointMap) (q : Point) :
    q ∈ (offs.foldl (expandStep img p) um).1 ↔
      q ∈ um.1 ∨ (mapHas um.2 q = false ∧ Reaches img p offs q) := by
  induction offs generalizing um with
  | nil => simp [Reaches]
  | cons xy offs ih =>
    rw [List.foldl_cons, ih, expandStep_mem, Reaches_cons img p xy offs q]
    have hh := expandStep_has img p um xy q
    cases hm : mapHas um.2 q
    · rw [hm] at hh
      by_cases h1 : Reaches img p [xy] q
      · have : mapHas (expandStep img p um xy).2 q = true := hh.mpr (Or.inr h1)
        simp [this, h1]
      · have : mapHas (expandStep img p um xy).2 q = false := by
          rw [Bool.eq_false_iff]
          intro h
          rcases hh.mp h with h | h
          · exact absurd h (by decide)
          · exact h1 h
        simp [this, h1]
    · have : mapHas (expandStep img p um xy).2 q = true := hh.mpr (Or.inl hm)
      simp [this]

theorem expand_has (img : Image) (p : Point) (u : List Point) (m : PointMap) (q : Point) :
    mapHas (expand img p u m).2 q = true ↔ mapHas m q = true ∨ Reaches img p offsets q :=
  foldl_expandStep_has img p offsets (u, m) q

theorem expand_mem (img : Image) (p : Point) (u : List Point) (m : PointMap) (q : Point) :
    q ∈ (expand img p u m).1 ↔ q ∈ u ∨ (mapHas m q = false ∧ Reaches img p offsets q) :=
  foldl_expandStep_mem img p offsets (u, m) q


/-! ## The palette -/

theorem mapM_option_some {α β : Type} (f : α → Option β) (l : List α)
    (h : ∀ x ∈ l, ∃ y, f x = some y) :
    ∃ ys, l.mapM f = some ys ∧ ys.length = l.length ∧ ∀ y ∈ ys, ∃ x ∈ l, f x = some y := by
  induction l with
  | nil => exact ⟨[], rfl, rfl, by simp⟩
  | cons a l ih =>
    obtain ⟨y, hy⟩ := h a (List.mem_cons_self a l)
    obtain ⟨ys, h1, h2, h3⟩ := ih (fun x hx => h x (List.mem_cons_of_mem a hx))
    refine ⟨y :: ys, ?_, by simp [h2], ?_⟩
    · rw [List.mapM_cons, hy, h1]
      rfl
    · intro z hz
      rcases List.mem_cons.mp hz with rfl | hz
      · exact ⟨a, List.mem_cons_self a l, hy⟩
      · obtain ⟨x, hx, hfx⟩ := h3 z hz
        exact ⟨x, List.mem_cons_of_mem a hx, hfx⟩

theorem triples_length (d : Nat) : (triples d).length = (d + 1) ^ 3 := by
  simp [triples, List.length_flatMap, Function.comp_def]
  ring

theorem MakeColour_some (c d : Nat) (hd : d ≠ 1) :
    ∃ v, MakeColour c d = some v ∧ v < 256 := by
  unfold MakeColour
  rw [if_neg (by omega)]
  exact ⟨_, rfl, by omega⟩

theorem MakeNRGBA_some (r g b d : Nat) (hd : d ≠ 1) :
    ∃ c, MakeNRGBA r g b d = some c ∧ c.Valid ∧ c.A = 255 := by
  obtain ⟨vr, hr, hr'⟩ := MakeColour_some r d hd
  obtain ⟨vg, hg, hg'⟩ := MakeColour_some g d hd
  obtain ⟨vb, hb, hb'⟩ := MakeColour_some b d hd
  refine ⟨⟨vr, vg, vb, 255⟩, ?_, ⟨hr', hg', hb', (by decide : (255 : Nat) < 256)⟩, rfl⟩
  unfold MakeNRGBA
  rw [hr, hg, hb]
  rfl

/-- For every depth other than 1 the enumeration succeeds, with `(d+1)³`
entries, all of them 8-bit colours of alpha 255. -/
theorem enumerate_some (d : Nat) (hd : d ≠ 1) :
    ∃ l, enumerate d = some l ∧ l.length = (d + 1) ^ 3 ∧ ∀ c ∈ l, c.Valid ∧ c.A = 255 := by
  obtain ⟨ys, h1, h2, h3⟩ := mapM_option_some
    (fun t : Nat × Nat × Nat => MakeNRGBA t.1 t.2.1 t.2.2 d) (triples d)
    (fun t _ => by
      obtain ⟨c, hc, _⟩ := MakeNRGBA_some t.1 t.2.1 t.2.2 d hd
      exact ⟨c, hc⟩)
  refine ⟨ys, h1, by rw [h2, triples_length], ?_⟩
  intro c hc
  obtain ⟨t, _, ht⟩ := h3 c hc
  obtain ⟨c', hc', hv⟩ := MakeNRGBA_some t.1 t.2.1 t.2.2 d hd
  have : c = c' := by
    have h := ht.symm.trans hc'
    exact Option.some.inj h
  rw [this]
  exact hv

/-- For every depth other than 1 the sorted palette is built, with `(d+1)³`
entries, all of them 8-bit colours of alpha 255. -/
theorem colour_list_some (srt : SliceSorter) (d : Nat) (hd : d ≠ 1) :
    ∃ pal, colour_list srt d = some pal ∧ pal.length = (d + 1) ^ 3 ∧
      ∀ c ∈ pal, c.Valid ∧ c.A = 255 := by
  obtain ⟨l, h1, h2, h3⟩ := enumerate_some d hd
  refine ⟨srt.sort hueLess l, by simp [colour_list, h1], ?_, ?_⟩
  · rw [(srt.perm hueLess l).length_eq, h2]
  · intro c hc
    exact h3 c ((srt.perm hueLess l).mem_iff.mp hc)

/-- A comparison of keys in a linear order is a strict weak ordering. -/
theorem strictWeak_of_key {α β : Type} [LinearOrder β] (key : α → β) :
    StrictWeak (fun a b => decide (key a < key b)) where
  irrefl a := by simp
  trans a b c h1 h2 := by
    simp only [decide_eq_true_eq] at *
    exact lt_trans h1 h2
  negTrans a b c h1 h2 := by
    simp only [decide_eq_false_iff_not, not_lt] at *
    exact le_trans h2 h1

theorem hueLess_strictWeak : StrictWeak hueLess := strictWeak_of_key Hue

/-! ## The image -/

theorem In_Rect (p : Point) (x y : Nat) :
    p.In (Rect 0 0 x y) = true ↔ 0 ≤ p.X ∧ p.X < x ∧ 0 ≤ p.Y ∧ p.Y < y := by
  simp [Point.In, Rect, and_assoc]

theorem NewNRGBA_sized (x y : Nat) : (NewNRGBA (Rect 0 0 x y)).Sized x y := by
  simp [NewNRGBA, Image.Sized, Rect]

theorem SetNRGBA_rect (img : Image) (px py : Int) (c : NRGBA) :
    (img.SetNRGBA px py c).Rect = img.Rect := by
  unfold Image.SetNRGBA
  split <;> rfl

theorem SetNRGBA_sized (img : Image) (x y : Nat) (px py : Int) (c : NRGBA)
    (h : img.Sized x y) : (img.SetNRGBA px py c).Sized x y := by
  unfold Image.SetNRGBA
  split
  · exact h
  · exact ⟨h.1, h.2.1, by simp [h.2.2]⟩

theorem pixOffset_lt (img : Image) (x y : Nat) (px py : Int) (h : img.Sized x y)
    (hin : (Pt px py).In img.Rect = true) : img.PixOffset px py < img.Pix.length := by
  rw [h.1, In_Rect] at hin
  obtain ⟨h1, h2, h3, h4⟩ := hin
  simp only [Pt] at h1 h2 h3 h4
  obtain ⟨a, rfl⟩ := Int.eq_ofNat_of_zero_le h1
  obtain ⟨b, rfl⟩ := Int.eq_ofNat_of_zero_le h3
  have ha : a < x := by exact_mod_cast h2
  have hb : b < y := by exact_mod_cast h4
  unfold Image.PixOffset
  rw [h.1, h.2.1, h.2.2]
  simp only [Rect, Int.sub_zero]
  have e : ((b : Int) * (x : Int) + (a : Int)) = ((b * x + a : Nat) : Int) := by push_cast; ring
  have hmin : min (0 : Int) (y : Int) = 0 := by omega
  have hmin2 : min (0 : Int) (x : Int) = 0 := by omega
  rw [hmin, hmin2, Int.sub_zero, Int.sub_zero, e, Int.toNat_ofNat]
  calc b * x + a < b * x + x := by omega
    _ = (b + 1) * x := by ring
    _ ≤ y * x := Nat.mul_le_mul_right x hb
    _ = x * y := Nat.mul_comm y x

/-- Reading back the cell that was just written. -/
theorem NRGBAAt_SetNRGBA_self (img : Image) (x y : Nat) (px py : Int) (c : NRGBA)
    (h : img.Sized x y) (hin : (Pt px py).In img.Rect = true) :
    (img.SetNRGBA px py c).NRGBAAt px py = c := by
  have hlt := pixOffset_lt img x y px py h hin
  unfold Image.SetNRGBA Image.NRGBAAt
  simp only [hin, Bool.not_true, Bool.false_eq_true, if_false]
  simp only [Image.PixOffset] at hlt ⊢
  rw [List.getD_eq_getElem?_getD, List.getElem?_set]
  simp [hlt]

/-- After a write, every cell holds either the written colour or what it held before. -/
theorem NRGBAAt_SetNRGBA_cases (img : Image) (px py qx qy : Int) (c : NRGBA) :
    (img.SetNRGBA px py c).NRGBAAt qx qy = c ∨
      (img.SetNRGBA px py c).NRGBAAt qx qy = img.NRGBAAt qx qy := by
  unfold Image.SetNRGBA
  split
  · exact Or.inr rfl
  · unfold Image.NRGBAAt
    simp only
    split
    · exact Or.inr rfl
    · simp only [Image.PixOffset]
      rw [List.getD_eq_getElem?_getD, List.getD_eq_getElem?_getD, List.getElem?_set]
      split
      · split
        · exact Or.inl rfl
        · rename_i h1 h2
          right
          rw [List.getElem?_eq_none (by omega)]
      · exact Or.inr rfl


/-! ## One iteration -/

theorem iteration_none (srt : SliceSorter) (pal : List NRGBA) (start : Point) (i : Nat)
    (s : State) (h : pal.length ≤ i) : iteration srt pal start i s = none := by
  unfold iteration
  rw [List.getElem?_eq_none h]

/-- The iteration taken while the frontier is empty: the seed is written. -/
theorem iteration_seed (srt : SliceSorter) (pal : List NRGBA) (start : Point) (i : Nat)
    (s : State) (c : NRGBA) (hc : pal[i]? = some c) (hu : s.unfilled = []) :
    iteration srt pal start i s = some
      { img := s.img.SetNRGBA start.X start.Y c
        unfilled := (expand (s.img.SetNRGBA start.X start.Y c) start [] s.unfilled_map).1
        unfilled_map := (expand (s.img.SetNRGBA start.X start.Y c) start [] s.unfilled_map).2
        trace := s.trace ++ [start] } := by
  unfold iteration
  rw [hc]
  simp [hu]

/-- The iteration taken while the frontier is not empty: the head of the
sorted frontier is removed and written. -/
theorem iteration_grow (srt : SliceSorter) (pal : List NRGBA) (start : Point) (i : Nat)
    (s : State) (c : NRGBA) (hc : pal[i]? = some c) (hu : s.unfilled ≠ []) :
    iteration srt pal start i s = some
      { img := s.img.SetNRGBA ((srt.sort (fitnessMore s.img c) s.unfilled).headD start).X
          ((srt.sort (fitnessMore s.img c) s.unfilled).headD start).Y c
        unfilled := (expand (s.img.SetNRGBA
          ((srt.sort (fitnessMore s.img c) s.unfilled).headD start).X
          ((srt.sort (fitnessMore s.img c) s.unfilled).headD start).Y c)
          ((srt.sort (fitnessMore s.img c) s.unfilled).headD start)
          (discardFirst (srt.sort (fitnessMore s.img c) s.unfilled))
          (mapDelete s.unfilled_map ((srt.sort (fitnessMore s.img c) s.unfilled).headD start))).1
        unfilled_map := (expand (s.img.SetNRGBA
          ((srt.sort (fitnessMore s.img c) s.unfilled).headD start).X
          ((srt.sort (fitnessMore s.img c) s.unfilled).headD start).Y c)
          ((srt.sort (fitnessMore s.img c) s.unfilled).headD start)
          (discardFirst (srt.sort (fitnessMore s.img c) s.unfilled))
          (mapDelete s.unfilled_map ((srt.sort (fitnessMore s.img c) s.unfilled).headD start))).2
        trace := s.trace ++ [(srt.sort (fitnessMore s.img c) s.unfilled).headD start] } := by
  unfold iteration
  rw [hc]
  have : ¬ s.unfilled.length = 0 := by
    intro h
    exact hu (List.length_eq_zero.mp h)
  simp [this]

/-- An iteration inside the palette succeeds; it writes one palette colour at
one point and appends that point to the trace. -/
theorem iteration_some (srt : SliceSorter) (pal : List NRGBA) (start : Point) (i : Nat)
    (s : State) (h : i < pal.length) :
    ∃ s' p, iteration srt pal start i s = some s' ∧ s'.trace = s.trace ++ [p] ∧
      s'.img = s.img.SetNRGBA p.X p.Y pal[i] ∧ (s.unfilled = [] → p = start) := by
  have hc : pal[i]? = some pal[i] := List.getElem?_eq_getElem h
  by_cases hu : s.unfilled = []
  · exact ⟨_, start, iteration_seed srt pal start i s _ hc hu, rfl, rfl, fun _ => rfl⟩
  · exact ⟨_, _, iteration_grow srt pal start i s _ hc hu, rfl, rfl, fun h => absurd h hu⟩

/-! ## The loop -/

theorem growth_succ (srt : SliceSorter) (pal : List NRGBA) (start : Point) (s0 : State)
    (n : Nat) :
    growth srt pal start s0 (n + 1) =
      (growth srt pal start s0 n).bind (iteration srt pal start n) := rfl

/-- Past the end of the palette the loop has panicked. -/
theorem growth_none (srt : SliceSorter) (pal : List NRGBA) (start : Point) (s0 : State)
    (n : Nat) (h : pal.length < n) : growth srt pal start s0 n = none := by
  induction n with
  | zero => omega
  | succ n ih =>
    rw [growth_succ]
    by_cases hn : pal.length < n
    · rw [ih hn]
      rfl
    · cases hg : growth srt pal start s0 n with
      | none => rfl
      | some s => exact iteration_none srt pal start n s (by omega)

/-- Within the palette the loop runs: after `n` iterations the trace holds `n`
more points, and every cell that held alpha 255 still does. -/
theorem growth_some (srt : SliceSorter) (pal : List NRGBA) (start : Point) (s0 : State)
    (hA : ∀ c ∈ pal, c.A = 255) (n : Nat) (h : n ≤ pal.length) :
    ∃ s, growth srt pal start s0 n = some s ∧ s.trace.length = s0.trace.length + n ∧
      s.img.Rect = s0.img.Rect ∧
      (∀ q, Coloured s0.img q → Coloured s.img q) ∧
      (∀ x y, s0.img.Sized x y → s.img.Sized x y) := by
  induction n with
  | zero => exact ⟨s0, rfl, rfl, rfl, fun _ h => h, fun _ _ h => h⟩
  | succ n ih =>
    obtain ⟨s, hs, hlen, hrect, hcol, hsz⟩ := ih (by omega)
    obtain ⟨s', p, h1, h2, h3, _⟩ := iteration_some srt pal start n s (by omega)
    refine ⟨s', by rw [growth_succ, hs]; exact h1, ?_, ?_, ?_, ?_⟩
    · rw [h2, List.length_append, hlen]
      rfl
    · rw [h3, SetNRGBA_rect, hrect]
    · intro q hq
      have hq' := hcol q hq
      unfold Coloured at hq' ⊢
      rw [h3]
      rcases NRGBAAt_SetNRGBA_cases s.img p.X p.Y q.X q.Y pal[n] with e | e
      · rw [e]
        exact hA _ (List.getElem_mem _)
      · rw [e]
        exact hq'
    · intro x y hxy
      rw [h3]
      exact SetNRGBA_sized _ x y _ _ _ (hsz x y hxy)

theorem seedPt_In (x y : Nat) (hx : 0 < x) (hy : 0 < y) :
    (seedPt x y).In (Rect 0 0 x y) = true := by
  rw [In_Rect]
  simp only [seedPt, Pt]
  have h1 : x / 2 < x := Nat.div_lt_self hx (by decide)
  have h2 : y / 2 < y := Nat.div_lt_self hy (by decide)
  omega

/-- The first iteration writes the first palette colour to the seed. -/
theorem growth_one (srt : SliceSorter) (pal : List NRGBA) (x y : Nat) (c : NRGBA)
    (hc : pal[0]? = some c) :
    growth srt pal (seedPt x y) (initState x y) 1 = some
      { img := (initState x y).img.SetNRGBA (seedPt x y).X (seedPt x y).Y c
        unfilled := (expand ((initState x y).img.SetNRGBA (seedPt x y).X (seedPt x y).Y c)
          (seedPt x y) [] []).1
        unfilled_map := (expand ((initState x y).img.SetNRGBA (seedPt x y).X (seedPt x y).Y c)
          (seedPt x y) [] []).2
        trace := [seedPt x y] } := by
  rw [growth_succ]
  show (some (initState x y)).bind _ = _
  rw [Option.some_bind, iteration_seed srt pal (seedPt x y) 0 (initState x y) c hc rfl]
  rfl


theorem initState_sized (x y : Nat) : (initState x y).img.Sized x y :=
  NewNRGBA_sized x y

/-- At every iteration boundary from the first on, and up to the end of the
palette, the trace starts with the seed and the seed cell is coloured. -/
theorem growth_seed (srt : SliceSorter) (pal : List NRGBA) (x y : Nat) (hx : 0 < x)
    (hy : 0 < y) (hA : ∀ c ∈ pal, c.A = 255) (n : Nat) (h1 : 1 ≤ n) (h : n ≤ pal.length) :
    ∃ s, growth srt pal (seedPt x y) (initState x y) n = some s ∧ s.trace.length = n ∧
      s.trace.head? = some (seedPt x y) ∧ Coloured s.img (seedPt x y) ∧ s.img.Sized x y := by
  induction n, h1 using Nat.le_induction with
  | base =>
    have hc : pal[0]? = some pal[0] := List.getElem?_eq_getElem (by omega)
    refine ⟨_, growth_one srt pal x y _ hc, rfl, rfl, ?_, ?_⟩
    · unfold Coloured
      simp only
      rw [NRGBAAt_SetNRGBA_self _ x y _ _ _ (initState_sized x y)
        (by rw [(initState_sized x y).1]; exact seedPt_In x y hx hy)]
      exact hA _ (List.getElem_mem _)
    · exact SetNRGBA_sized _ x y _ _ _ (initState_sized x y)
  | succ n hn ih =>
    obtain ⟨s, hs, hlen, hhead, hcol, hsz⟩ := ih (by omega)
    obtain ⟨s', p, e1, e2, e3, _⟩ := iteration_some srt pal (seedPt x y) n s (by omega)
    refine ⟨s', by rw [growth_succ, hs]; exact e1, ?_, ?_, ?_, ?_⟩
    · rw [e2, List.length_append, hlen]
      rfl
    · rw [e2]
      cases ht : s.trace with
      | nil => rw [ht] at hhead; exact absurd hhead (by simp)
      | cons a t => rw [ht] at hhead; simpa using hhead
    · unfold Coloured at hcol ⊢
      rw [e3]
      rcases NRGBAAt_SetNRGBA_cases s.img p.X p.Y (seedPt x y).X (seedPt x y).Y pal[n] with e | e
      · rw [e]
        exact hA _ (List.getElem_mem _)
      · rw [e]
        exact hcol
    · rw [e3]
      exact SetNRGBA_sized _ x y _ _ _ hsz

theorem offsets_mem_iff (xy : Int × Int) :
    xy ∈ offsets ↔ (xy.1 = -1 ∨ xy.1 = 0 ∨ xy.1 = 1) ∧ (xy.2 = -1 ∨ xy.2 = 0 ∨ xy.2 = 1) := by
  obtain ⟨a, b⟩ := xy
  simp only [offsets, List.mem_flatMap, List.mem_map, List.mem_cons, List.mem_singleton,
    List.not_mem_nil, or_false, Prod.mk.injEq]
  constructor
  · rintro ⟨a', ha, b', hb, rfl, rfl⟩
    exact ⟨ha, hb⟩
  · rintro ⟨ha, hb⟩
    exact ⟨a, ha, b, hb, rfl, rfl⟩

theorem headD_mem {α : Type} (l : List α) (d : α) (h : l ≠ []) : l.headD d ∈ l := by
  cases l with
  | nil => exact absurd rfl h
  | cons a t => exact List.mem_cons_self a t

/-- Being an in-bounds neighbour is symmetric between two in-bounds points. -/
theorem Reaches_symm (img img' : Image) (p q : Point) (hr : img'.Rect = img.Rect)
    (hp : p.In img.Rect = true) (h : Reaches img p offsets q) : Reaches img' q offsets p := by
  obtain ⟨xy, hxy, hne, _, hq⟩ := h
  rw [offsets_mem_iff] at hxy
  refine ⟨(-xy.1, -xy.2), ?_, ?_, ?_, ?_⟩
  · rw [offsets_mem_iff]
    simp only
    omega
  · simp only [Bool.and_eq_false_iff, beq_eq_false_iff_ne, ne_eq] at hne ⊢
    omega
  · rw [hr, hq]
    have : (p.Add (Pt xy.1 xy.2)).Add (Pt (-xy.1) (-xy.2)) = p := by
      simp [Point.Add, Pt]
    rw [this]
    exact hp
  · rw [hq]
    simp [Point.Add, Pt]

theorem not_Reaches_self (img : Image) (p : Point) (offs : List (Int × Int)) :
    ¬ Reaches img p offs p := by
  rintro ⟨xy, _, hne, _, hq⟩
  simp only [Bool.and_eq_false_iff, beq_eq_false_iff_ne, ne_eq] at hne
  have h1 : p.X = p.X + xy.1 := by
    have := congrArg Point.X hq
    simpa [Point.Add, Pt] using this
  have h2 : p.Y = p.Y + xy.2 := by
    have := congrArg Point.Y hq
    simpa [Point.Add, Pt] using this
  omega

/-- A canvas of at least two cells has an in-bounds neighbour of the seed. -/
theorem seed_has_neighbour (img : Image) (x y : Nat) (hr : img.Rect = Rect 0 0 x y)
    (hx : 0 < x) (hy : 0 < y) (hxy : 2 ≤ x * y) :
    ∃ q, Reaches img (seedPt x y) offsets q := by
  by_cases h2 : 2 ≤ x
  · refine ⟨(seedPt x y).Add (Pt (-1) 0), (-1, 0), by decide, by decide, ?_, rfl⟩
    rw [hr, In_Rect]
    simp only [seedPt, Pt, Point.Add]
    have h1 : x / 2 < x := Nat.div_lt_self hx (by decide)
    have h3 : y / 2 < y := Nat.div_lt_self hy (by decide)
    omega
  · have hx1 : x = 1 := by omega
    subst hx1
    refine ⟨(seedPt 1 y).Add (Pt 0 (-1)), (0, -1), by decide, by decide, ?_, rfl⟩
    rw [hr, In_Rect]
    simp only [seedPt, Pt, Point.Add]
    have h3 : y / 2 < y := Nat.div_lt_self hy (by decide)
    omega

/-- After the second iteration the seed, which was coloured by the first, is a
member of the frontier again (of the slice and of the map), whatever point
the sort put first. -/
theorem seed_reenters (srt : SliceSorter) (pal : List NRGBA) (x y : Nat) (hx : 0 < x)
    (hy : 0 < y) (hxy : 2 ≤ x * y) (hA : ∀ c ∈ pal, c.A = 255) (hp : 2 ≤ pal.length) :
    ∃ s, growth srt pal (seedPt x y) (initState x y) 2 = some s ∧
      seedPt x y ∈ s.unfilled ∧ mapHas s.unfilled_map (seedPt x y) = true ∧
      Coloured s.img (seedPt x y) ∧ s.trace.head? = some (seedPt x y) := by
  have hc0 : pal[0]? = some pal[0] := List.getElem?_eq_getElem (by omega)
  have hc1 : pal[1]? = some pal[1] := List.getElem?_eq_getElem (by omega)
  have hg1 := growth_one srt pal x y _ hc0
  obtain ⟨s2, hg2, _, hhead, hcol, _⟩ := growth_seed srt pal x y hx hy hA 2 (by omega) hp
  refine ⟨s2, hg2, ?_, ?_, hcol, hhead⟩ <;>
  · rw [growth_succ, hg1, Option.some_bind] at hg2
    generalize hs1 : ({ img := (initState x y).img.SetNRGBA (seedPt x y).X (seedPt x y).Y pal[0]
                        unfilled := (expand ((initState x y).img.SetNRGBA (seedPt x y).X
                          (seedPt x y).Y pal[0]) (seedPt x y) [] []).1
                        unfilled_map := (expand ((initState x y).img.SetNRGBA (seedPt x y).X
                          (seedPt x y).Y pal[0]) (seedPt x y) [] []).2
                        trace := [seedPt x y] } : State) = s1 at hg2
    have himg : s1.img.Rect = Rect 0 0 x y := by
      rw [← hs1]
      simp only
      rw [SetNRGBA_rect]
      exact (initState_sized x y).1
    have hmem : ∀ q, q ∈ s1.unfilled ↔ Reaches s1.img (seedPt x y) offsets q := by
      intro q
      rw [← hs1]
      simp only
      rw [expand_mem]
      simp [mapHas_nil]
    have hhas : ∀ q, mapHas s1.unfilled_map q = true ↔ Reaches s1.img (seedPt x y) offsets q := by
      intro q
      rw [← hs1]
      simp only
      rw [expand_has]
      simp [mapHas_nil]
    have hne : s1.unfilled ≠ [] := by
      obtain ⟨q, hq⟩ := seed_has_neighbour s1.img x y himg hx hy hxy
      intro h
      have := (hmem q).mpr hq
      rw [h] at this
      exact absurd this (List.not_mem_nil q)
    rw [iteration_grow srt pal (seedPt x y) 1 s1 _ hc1 hne] at hg2
    have hsne : srt.sort (fitnessMore s1.img pal[1]) s1.unfilled ≠ [] := by
      intro h
      have := (srt.perm (fitnessMore s1.img pal[1]) s1.unfilled).length_eq
      rw [h] at this
      exact hne (List.length_eq_zero.mp this.symm)
    have hcurr : Reaches s1.img (seedPt x y) offsets
        ((srt.sort (fitnessMore s1.img pal[1]) s1.unfilled).headD (seedPt x y)) :=
      (hmem _).mp ((srt.perm _ _).mem_iff.mp (headD_mem _ _ hsne))
    generalize (srt.sort (fitnessMore s1.img pal[1]) s1.unfilled).headD (seedPt x y) = curr
      at hg2 hcurr
    have hback : Reaches (s1.img.SetNRGBA curr.X curr.Y pal[1]) curr offsets (seedPt x y) :=
      Reaches_symm s1.img _ (seedPt x y) curr (SetNRGBA_rect _ _ _ _)
        (by rw [himg]; exact seedPt_In x y hx hy) hcurr
    have hnot : mapHas (mapDelete s1.unfilled_map curr) (seedPt x y) = false := by
      rw [Bool.eq_false_iff]
      intro h
      rw [mapHas_mapDelete, hhas] at h
      exact not_Reaches_self _ _ _ h.2
    have := Option.some.inj hg2
    rw [← this]
    simp only
    first
      | exact (expand_mem _ _ _ _ _).mpr (Or.inr ⟨hnot, hback⟩)
      | exact (expand_has _ _ _ _ _).mpr (Or.inr hback)

/-! ## Every run is one of the enumerated outcomes -/

theorem mem_insertEverywhere {α : Type} (a : α) (l1 l2 : List α) :
    l1 ++ a :: l2 ∈ insertEverywhere a (l1 ++ l2) := by
  induction l1 with
  | nil =>
    cases l2 with
    | nil => simp [insertEverywhere]
    | cons b l => simp [insertEverywhere]
  | cons b l1 ih =>
    simp only [List.cons_append, insertEverywhere, List.mem_cons, List.mem_map]
    exact Or.inr ⟨_, ih, rfl⟩

theorem mem_perms {α : Type} (l l' : List α) (h : l'.Perm l) : l' ∈ perms l := by
  induction l generalizing l' with
  | nil =>
    rw [List.perm_nil.mp h]
    simp [perms]
  | cons a l ih =>
    have ha : a ∈ l' := h.mem_iff.mpr (List.mem_cons_self a l)
    obtain ⟨l1, l2, rfl⟩ := List.append_of_mem ha
    have h2 : (l1 ++ l2).Perm l := by
      have := (@List.perm_middle _ a l1 l2).symm.trans h
      exact this.cons_inv
    simp only [perms, List.mem_flatMap]
    exact ⟨l1 ++ l2, ih _ h2, mem_insertEverywhere a l1 l2⟩

theorem isOrdered_iff {α : Type} (less : α → α → Bool) (l : List α) :
    isOrdered less l = true ↔ l.Pairwise (fun a b => less b a = false) := by
  induction l with
  | nil => simp [isOrdered]
  | cons a l ih =>
    simp only [isOrdered, Bool.and_eq_true, List.all_eq_true, Bool.not_eq_true', ih,
      List.pairwise_cons]

/-- Whatever `sort.Slice` returns for a strict weak `less` is among `sortResults`. -/
theorem sort_mem_sortResults {α : Type} (srt : SliceSorter) (less : α → α → Bool)
    (hless : StrictWeak less) (u : List α) : srt.sort less u ∈ sortResults less u := by
  unfold sortResults
  rw [List.mem_filter]
  exact ⟨mem_perms u _ (srt.perm less u), (isOrdered_iff less _).mpr (srt.sorted less u hless)⟩

/-- A descending comparison of keys in a linear order is a strict weak ordering. -/
theorem strictWeak_of_key_desc {α β : Type} [LinearOrder β] (key : α → β) :
    StrictWeak (fun a b => decide (key a > key b)) where
  irrefl a := by simp
  trans a b c h1 h2 := by
    simp only [decide_eq_true_eq, gt_iff_lt] at *
    exact lt_trans h2 h1
  negTrans a b c h1 h2 := by
    simp only [decide_eq_false_iff_not, not_lt, gt_iff_lt] at *
    exact le_trans h1 h2

theorem fitnessMore_strictWeak (img : Image) (c : NRGBA) : StrictWeak (fitnessMore img c) :=
  strictWeak_of_key_desc (ColourFitness img c)

/-- An iteration inside the palette is `stepWith` applied to the result of the sort. -/
theorem iteration_eq_stepWith (srt : SliceSorter) (pal : List NRGBA) (start : Point) (i : Nat)
    (s : State) (c : NRGBA) (hc : pal[i]? = some c) :
    iteration srt pal start i s =
      some (stepWith c start s (srt.sort (fitnessMore s.img c) s.unfilled)) := by
  unfold iteration stepWith
  rw [hc]

/-- Within the palette, the loop is a fold of `stepWith` over the colours it consumes. -/
theorem growth_eq_foldl (srt : SliceSorter) (pal : List NRGBA) (start : Point) (s0 : State)
    (n : Nat) (h : n ≤ pal.length) :
    growth srt pal start s0 n = some ((pal.take n).foldl
      (fun s c => stepWith c start s (srt.sort (fitnessMore s.img c) s.unfilled)) s0) := by
  induction n with
  | zero => rfl
  | succ n ih =>
    have hn : n < pal.length := by omega
    rw [growth_succ, ih (by omega), Option.some_bind,
      iteration_eq_stepWith srt pal start n _ pal[n] (List.getElem?_eq_getElem hn),
      List.take_succ, List.getElem?_eq_getElem hn, Option.toList_some, List.foldl_append]
    rfl

theorem foldl_mem_outcomes (srt : SliceSorter) (start : Point) (cs : List NRGBA) (s : State) :
    cs.foldl (fun s c => stepWith c start s (srt.sort (fitnessMore s.img c) s.unfilled)) s ∈
      outcomes start cs s := by
  induction cs generalizing s with
  | nil => simp [outcomes]
  | cons c cs ih =>
    simp only [List.foldl_cons, outcomes, List.mem_flatMap]
    exact ⟨_, sort_mem_sortResults srt _ (fitnessMore_strictWeak s.img c) s.unfilled, ih _⟩

/-- Every run of the first `n` iterations, under any `sort.Slice`, ends in one
of the enumerated outcomes. -/
theorem growth_mem_outcomes (srt : SliceSorter) (pal : List NRGBA) (start : Point)
    (s0 : State) (n : Nat) (h : n ≤ pal.length) :
    ∃ s, growth srt pal start s0 n = some s ∧ s ∈ outcomes start (pal.take n) s0 :=
  ⟨_, growth_eq_foldl srt pal start s0 n h, foldl_mem_outcomes srt start _ s0⟩

/-! ## The palette of depth 2 -/

/-- What `colour_list` is when it is built: a rearrangement of the enumerated
colours, in non-decreasing hue order. -/
theorem colour_list_spec (srt : SliceSorter) (d : Nat) (pal : List NRGBA)
    (h : colour_list srt d = some pal) :
    ∃ l, enumerate d = some l ∧ pal.Perm l ∧ pal.Pairwise (fun a b => Hue a ≤ Hue b) := by
  unfold colour_list at h
  cases he : enumerate d with
  | none => rw [he] at h; exact absurd h (by simp)
  | some l =>
    rw [he] at h
    simp only [Option.map_some', Option.some.injEq] at h
    subst h
    refine ⟨l, rfl, srt.perm hueLess l, ?_⟩
    have hs := srt.sorted hueLess l hueLess_strictWeak
    refine hs.imp ?_
    intro a b hab
    simpa [hueLess] using hab

theorem colour_list_stable_2 : colour_list stableSorter 2 = some stablePalette2 := by
  decide!

/-- Under every `sort.Slice` the palette of depth 2 is a rearrangement of
`stablePalette2` in non-decreasing hue order. -/
theorem colour_list_2 (srt : SliceSorter) :
    ∃ pal, colour_list srt 2 = some pal ∧ pal.Perm stablePalette2 ∧
      pal.Pairwise (fun a b => Hue a ≤ Hue b) := by
  obtain ⟨pal, hpal, _, _⟩ := colour_list_some srt 2 (by decide)
  obtain ⟨l, hl, hperm, hsorted⟩ := colour_list_spec srt 2 pal hpal
  obtain ⟨l', hl', hperm', _⟩ := colour_list_spec stableSorter 2 _ colour_list_stable_2
  rw [hl] at hl'
  have : l = l' := Option.some.inj hl'
  subst this
  exact ⟨pal, hpal, hperm.trans hperm'.symm, hsorted⟩

/-- In a list ordered by hue, with no negative hue, the colours of hue 0 come first. -/
theorem hue_zero_first (pal : List NRGBA) (k : Nat)
    (hs : pal.Pairwise (fun a b => Hue a ≤ Hue b)) (hnn : ∀ c ∈ pal, 0 ≤ Hue c)
    (hcount : k ≤ pal.countP (fun c => decide (Hue c = 0)))
    (i : Nat) (hi : i < pal.length) (hik : i < k) : Hue pal[i] = 0 := by
  by_contra hne
  have hpos : 0 < Hue pal[i] := lt_of_le_of_ne (hnn _ (List.getElem_mem _)) (Ne.symm hne)
  have hsplit : pal.countP (fun c => decide (Hue c = 0)) =
      (pal.take i).countP (fun c => decide (Hue c = 0)) +
        (pal.drop i).countP (fun c => decide (Hue c = 0)) := by
    rw [← List.countP_append, List.take_append_drop]
  have hdrop : (pal.drop i).countP (fun c => decide (Hue c = 0)) = 0 := by
    rw [List.countP_eq_zero]
    intro a ha
    have hsub : (pal.drop i).Pairwise (fun a b => Hue a ≤ Hue b) :=
      hs.sublist (List.drop_sublist i pal)
    rw [List.drop_eq_getElem_cons hi] at ha hsub
    have hge : Hue pal[i] ≤ Hue a := by
      rcases List.mem_cons.mp ha with rfl | ha'
      · exact le_refl _
      · exact (List.pairwise_cons.mp hsub).1 a ha'
    have : 0 < Hue a := lt_of_lt_of_le hpos hge
    simp only [decide_eq_true_eq]
    exact ne_of_gt this
  have htake : (pal.take i).countP (fun c => decide (Hue c = 0)) ≤ i :=
    le_trans (List.countP_le_length _) (by simp)
  omega

theorem stablePalette2_facts :
    stablePalette2.Nodup ∧ stablePalette2.countP (fun c => decide (Hue c = 0)) = 6 ∧
      (∀ c ∈ stablePalette2, 0 ≤ Hue c) ∧
      (∀ c ∈ stablePalette2, Hue c = 0 → c ∈ hueZero2) := by
  decide!

/-- The first four colours of the palette of depth 2, under every `sort.Slice`,
are four different colours of hue 0. -/
theorem colour_list_2_first_four (srt : SliceSorter) :
    ∃ c0 c1 c2 c3 rest, colour_list srt 2 = some (c0 :: c1 :: c2 :: c3 :: rest) ∧
      c0 ∈ hueZero2 ∧ c1 ∈ hueZero2 ∧ c2 ∈ hueZero2 ∧ c3 ∈ hueZero2 ∧
      [c0, c1, c2, c3].Nodup := by
  obtain ⟨pal, hpal, hperm, hsorted⟩ := colour_list_2 srt
  obtain ⟨hnd, hcnt, hnn, hz⟩ := stablePalette2_facts
  have hlen : pal.length = 27 := hperm.length_eq
  have hnn' : ∀ c ∈ pal, 0 ≤ Hue c := fun c hc => hnn c (hperm.mem_iff.mp hc)
  have hcnt' : 4 ≤ pal.countP (fun c => decide (Hue c = 0)) := by
    rw [hperm.countP_eq, hcnt]
    decide
  have hnd' : pal.Nodup := hperm.nodup_iff.mpr hnd
  have hin : ∀ i (hi : i < pal.length), i < 4 → pal[i] ∈ hueZero2 := by
    intro i hi h4
    exact hz _ (hperm.mem_iff.mp (List.getElem_mem _))
      (hue_zero_first pal 4 hsorted hnn' hcnt' i hi h4)
  match pal, hlen, hpal, hnd', hin with
  | c0 :: c1 :: c2 :: c3 :: rest, _, hpal, hnd', hin =>
    refine ⟨c0, c1, c2, c3, rest, hpal, hin 0 (by simp) (by decide), hin 1 (by simp) (by decide),
      hin 2 (by simp) (by decide), hin 3 (by simp) (by decide), ?_⟩
    have : ([c0, c1, c2, c3] : List NRGBA).Sublist (c0 :: c1 :: c2 :: c3 :: rest) := by
      simp
    exact hnd'.sublist this

/-- On a 4x1 canvas, for every choice of four different colours of hue 0 and
every result `sort.Slice` may give, the four iterations write some cell twice
and leave some cell unwritten. -/
theorem outcomes_4_1 :
    ∀ c0 ∈ hueZero2, ∀ c1 ∈ hueZero2, ∀ c2 ∈ hueZero2, ∀ c3 ∈ hueZero2,
      [c0, c1, c2, c3].Nodup →
        ∀ s ∈ outcomes (seedPt 4 1) [c0, c1, c2, c3] (initState 4 1),
          failsToFill 4 1 s = true := by
  decide!

/-! ## The colour distance -/

/-- `ColourDiff(a, b)` is the sum of the squared channel differences whenever no
channel of `b` exceeds the same channel of `a` (so that no `uint8` subtraction wraps). -/
theorem ColourDiff_eq_sumSquaredDiff_of_le (a b : NRGBA) (ha : a.Valid) (hR : b.R ≤ a.R)
    (hG : b.G ≤ a.G) (hB : b.B ≤ a.B) : ColourDiff a b = sumSquaredDiff a b := by
  obtain ⟨h1, h2, h3, _⟩ := ha
  unfold ColourDiff sumSquaredDiff
  have e1 : ((a.R : Int) - (b.R : Int)) % 256 = (a.R : Int) - (b.R : Int) :=
    Int.emod_eq_of_lt (by omega) (by omega)
  have e2 : ((a.G : Int) - (b.G : Int)) % 256 = (a.G : Int) - (b.G : Int) :=
    Int.emod_eq_of_lt (by omega) (by omega)
  have e3 : ((a.B : Int) - (b.B : Int)) % 256 = (a.B : Int) - (b.B : Int) :=
    Int.emod_eq_of_lt (by omega) (by omega)
  simp only [e1, e2, e3]
  ring

/-! ## The claims C1 to C10 -/

/-- C1 (code at the failing input): whatever `sort.Slice` does with ties,
`Render(4, 1, 2)` completes its four iterations with some cell of the canvas
passed to `SetNRGBA` twice and some cell never written (it still holds the zero
colour of a fresh image). -/
theorem Render_4_1_2_writes_twice (srt : SliceSorter) :
    ∃ s, Render srt 4 1 2 = .ok s ∧ s.trace.length = 4 ∧
      (∃ p : Point, p.In s.img.Rect = true ∧ 2 ≤ s.trace.count p) ∧
      (∃ q : Point, q.In s.img.Rect = true ∧ s.img.NRGBAAt q.X q.Y = NRGBA.zero) := by
  obtain ⟨c0, c1, c2, c3, rest, hpal, h0, h1, h2, h3, hnd⟩ := colour_list_2_first_four srt
  obtain ⟨pal', hpal', _, hval⟩ := colour_list_some srt 2 (by decide)
  rw [hpal] at hpal'
  have hpp : c0 :: c1 :: c2 :: c3 :: rest = pal' := Option.some.inj hpal'
  subst hpp
  obtain ⟨s, hs, hmem⟩ := growth_mem_outcomes srt (c0 :: c1 :: c2 :: c3 :: rest) (seedPt 4 1)
    (initState 4 1) 4 (by simp)
  obtain ⟨s', hs', hlen, hrect, _, _⟩ := growth_some srt (c0 :: c1 :: c2 :: c3 :: rest)
    (seedPt 4 1) (initState 4 1) (fun c hc => (hval c hc).2) 4 (by simp)
  rw [hs] at hs'
  have hss : s = s' := Option.some.inj hs'
  subst hss
  have hbad := outcomes_4_1 c0 h0 c1 h1 c2 h2 c3 h3 hnd s hmem
  have hcells : ∀ p ∈ canvasPoints 4 1, p.In s.img.Rect = true := by
    rw [hrect]
    decide
  unfold failsToFill at hbad
  simp only [Bool.and_eq_true, List.any_eq_true, decide_eq_true_eq] at hbad
  obtain ⟨⟨p, hp, hp2⟩, ⟨q, hq, hq0⟩⟩ := hbad
  refine ⟨s, ?_, by simpa using hlen, ⟨p, hcells p hp, hp2⟩, ⟨q, hcells q hq, hq0⟩⟩
  unfold Render RenderUpTo
  rw [hpal]
  simp only
  rw [hs]

/-- The run of `Render(4, 1, 2)` under the stable sort: the writes go to
`(2,0)`, `(1,0)`, `(2,0)`, `(1,0)`, and the cells `(0,0)` and `(3,0)` keep alpha 0. -/
theorem Render_4_1_2_stable :
    (Render stableSorter 4 1 2).toOption.map
        (fun s => (s.trace, s.img.Pix.map fun c => c.A)) =
      some ([Pt 2 0, Pt 1 0, Pt 2 0, Pt 1 0], [0, 255, 255, 0]) := by
  decide!

/-- C2 (counterexample): depth 2 gives 27 colours, fewer than the 28 cells of a
7x4 canvas, yet nothing stops `Render` before the loop.  The first iteration
completes (the seed `(3,2)` holds the first palette colour and 8 points are in
the frontier), 27 iterations complete, and only then does the run stop, with
an index-out-of-range panic. -/
theorem Render_7_4_2_fails_mid_run :
    (2 + 1) ^ 3 < 7 * 4 ∧
      (RenderUpTo stableSorter 7 4 2 1).toOption.map
        (fun s => (s.trace, s.img.NRGBAAt 3 2, s.unfilled.length)) =
          some ([Pt 3 2], ⟨0, 0, 0, 255⟩, 8) ∧
      (RenderUpTo stableSorter 7 4 2 27).toOption.map (fun s => s.trace.length) = some 27 ∧
      Render stableSorter 7 4 2 = .error .indexOutOfRange := by
  decide!

/-- C2 (amended): for every depth other than 1 whose palette of `(d+1)³`
colours is smaller than the canvas, `Render` does not fail before the loop: it
runs `(d+1)³` iterations, the first of which writes the seed cell, and the
next iteration stops the run with an index-out-of-range panic. -/
theorem Render_small_palette_fails_mid_run (srt : SliceSorter) (x y d : Nat) (hd : d ≠ 1)
    (h : (d + 1) ^ 3 < x * y) :
    Render srt x y d = .error .indexOutOfRange ∧
      RenderUpTo srt x y d ((d + 1) ^ 3 + 1) = .error .indexOutOfRange ∧
      ∃ s, RenderUpTo srt x y d ((d + 1) ^ 3) = .ok s ∧ s.trace.length = (d + 1) ^ 3 ∧
        s.trace.head? = some (seedPt x y) ∧ Coloured s.img (seedPt x y) := by
  obtain ⟨pal, hpal, hlen, hval⟩ := colour_list_some srt d hd
  have hA : ∀ c ∈ pal, c.A = 255 := fun c hc => (hval c hc).2
  have hpos : 0 < (d + 1) ^ 3 := by positivity
  have hx : 0 < x := Nat.pos_of_ne_zero (by rintro rfl; simp at h)
  have hy : 0 < y := Nat.pos_of_ne_zero (by rintro rfl; simp at h)
  refine ⟨?_, ?_, ?_⟩
  · unfold Render RenderUpTo
    rw [hpal]
    simp only
    rw [growth_none srt pal _ _ _ (by rw [hlen]; exact h)]
  · unfold RenderUpTo
    rw [hpal]
    simp only
    rw [growth_none srt pal _ _ _ (by rw [hlen]; exact Nat.lt_succ_self _)]
  · obtain ⟨s, hs, h1, h2, h3, _⟩ :=
      growth_seed srt pal x y hx hy hA ((d + 1) ^ 3) hpos (by rw [hlen])
    refine ⟨s, ?_, h1, h2, h3⟩
    unfold RenderUpTo
    rw [hpal]
    simp only
    rw [hs]

/-- C2 (amended), at a 28x1 canvas with depth 2. -/
theorem Render_small_palette_fails_mid_run_witness :
    (2 : Nat) ≠ 1 ∧ (2 + 1) ^ 3 < 28 * 1 ∧
      Render stableSorter 28 1 2 = .error .indexOutOfRange ∧
      RenderUpTo stableSorter 28 1 2 ((2 + 1) ^ 3 + 1) = .error .indexOutOfRange ∧
      ∃ s, RenderUpTo stableSorter 28 1 2 ((2 + 1) ^ 3) = .ok s ∧
        s.trace.length = (2 + 1) ^ 3 ∧
        s.trace.head? = some (seedPt 28 1) ∧ Coloured s.img (seedPt 28 1) :=
  ⟨by decide, by decide,
    Render_small_palette_fails_mid_run stableSorter 28 1 2 (by decide) (by decide)⟩

/-- C3 (code at the failing input): for depth 1 the palette is never built.
`MakeColour` divides by `colours - 1 = 0`, so the enumeration panics and
`Render(1, 1, 1)` ends in a divide-by-zero panic instead of an 8-colour palette. -/
theorem colour_list_depth_one_panics (srt : SliceSorter) :
    MakeColour 0 1 = none ∧ colour_list srt 1 = none ∧
      Render srt 1 1 1 = .error .divideByZero := by
  have h : enumerate 1 = none := by decide
  have h2 : colour_list srt 1 = none := by simp [colour_list, h]
  refine ⟨by decide, h2, ?_⟩
  simp [Render, RenderUpTo, h2]

/-- C4 (counterexample): `MakeColour(1, 3)` is `255 / 2 = 127`, where
`round(1 * 255 / 3)` is 85. -/
theorem MakeColour_not_rounded :
    ¬ ∀ D k : Nat, 1 ≤ D → k ≤ D → MakeColour k D = some (roundedLevel k D).toNat := by
  intro h
  have h2 := h 3 1 (by decide) (by decide)
  have e1 : MakeColour ((1 : Nat) : Int) ((3 : Nat) : Int) = some 127 := by decide
  have e2 : roundedLevel 1 3 = 85 := by
    unfold roundedLevel
    norm_num
  rw [e1, e2] at h2
  exact absurd h2 (by decide)

/-- C4 (amended): for every `D ≥ 2` and every level `k ≤ D - 1`,
`MakeColour(k, D)` is `k * 255 / (D - 1)` with the division truncated; it lies
in `0..255`, level 0 gives 0 and level `D - 1` gives 255. -/
theorem MakeColour_levels (D k : Nat) (hD : 2 ≤ D) (hk : k + 1 ≤ D) :
    MakeColour k D = some (k * 255 / (D - 1)) ∧ k * 255 / (D - 1) ≤ 255 ∧
      MakeColour 0 D = some 0 ∧ MakeColour ((D - 1 : Nat) : Int) D = some 255 := by
  have key : ∀ j : Nat, j + 1 ≤ D →
      MakeColour j D = some (j * 255 / (D - 1)) ∧ j * 255 / (D - 1) ≤ 255 := by
    intro j hj
    have hle : j * 255 / (D - 1) ≤ 255 := by
      apply Nat.div_le_of_le_mul
      have : j ≤ D - 1 := by omega
      exact Nat.mul_le_mul_right _ this
    refine ⟨?_, hle⟩
    unfold MakeColour
    rw [if_neg (by omega)]
    congr 1
    have e : ((D : Int) - 1) = ((D - 1 : Nat) : Int) := by omega
    rw [e]
    have e2 : ((j : Int) * 255) = ((j * 255 : Nat) : Int) := by push_cast; rfl
    rw [e2, ← Int.ofNat_tdiv]
    generalize j * 255 / (D - 1) = q at hle ⊢
    omega
  refine ⟨(key k hk).1, (key k hk).2, ?_, ?_⟩
  · have := (key 0 (by omega)).1
    simpa using this
  · have := (key (D - 1) (by omega)).1
    rw [this, Nat.mul_div_cancel_left 255 (by omega : 0 < D - 1)]

/-- C4 (amended), at depth 3 and level 1: the level is 127, where rounding
`255 / 2` would give 128. -/
theorem MakeColour_levels_witness :
    2 ≤ 3 ∧ 1 + 1 ≤ 3 ∧ MakeColour (1 : Nat) (3 : Nat) = some (1 * 255 / (3 - 1)) ∧
      1 * 255 / (3 - 1) ≤ 255 ∧
      MakeColour 0 (3 : Nat) = some 0 ∧ MakeColour ((3 - 1 : Nat) : Int) (3 : Nat) = some 255 :=
  ⟨by decide, by decide, MakeColour_levels 3 1 (by decide) (by decide)⟩

/-- C5: whenever the palette is built, it is a rearrangement of the enumerated
colours and its hues are in non-decreasing order: `Hue(palette[i]) ≤ Hue(palette[j])`
for all indices `i < j`. -/
theorem colour_list_sorted_by_hue (srt : SliceSorter) (d : Nat) (pal : List NRGBA)
    (h : colour_list srt d = some pal) :
    ∃ l, enumerate d = some l ∧ pal.Perm l ∧
      ∀ (i j : Nat) (hi : i < pal.length) (hj : j < pal.length), i < j →
        Hue pal[i] ≤ Hue pal[j] := by
  obtain ⟨l, hl, hperm, hsorted⟩ := colour_list_spec srt d pal h
  exact ⟨l, hl, hperm, List.pairwise_iff_getElem.mp hsorted⟩

/-- C5, for the palette of depth 2 as the stable sort orders it. -/
theorem colour_list_sorted_by_hue_witness :
    colour_list stableSorter 2 = some stablePalette2 ∧
      ∃ l, enumerate 2 = some l ∧ stablePalette2.Perm l ∧
        ∀ (i j : Nat) (hi : i < stablePalette2.length) (hj : j < stablePalette2.length),
          i < j → Hue stablePalette2[i] ≤ Hue stablePalette2[j] :=
  ⟨by decide!, colour_list_sorted_by_hue stableSorter 2 stablePalette2 (by decide!)⟩

/-- C6 (code at the failing input): for `a = (0,0,0)` and `b = (1,0,0)` the
`uint8` subtraction `a.R - b.R` wraps to 255, so `ColourDiff(a, b)` is 65025
where the sum of the squared channel differences is 1. -/
theorem ColourDiff_wraps :
    ColourDiff ⟨0, 0, 0, 255⟩ ⟨1, 0, 0, 255⟩ = 65025 ∧
      sumSquaredDiff ⟨0, 0, 0, 255⟩ ⟨1, 0, 0, 255⟩ = 1 := by
  decide

/-- C7 (code at the failing input): `ColourDiff((0,0,0), (1,0,0))` is 65025 and
`ColourDiff((1,0,0), (0,0,0))` is 1, so `ColourDiff` is not symmetric. -/
theorem ColourDiff_not_symmetric :
    ColourDiff ⟨0, 0, 0, 255⟩ ⟨1, 0, 0, 255⟩ = 65025 ∧
      ColourDiff ⟨1, 0, 0, 255⟩ ⟨0, 0, 0, 255⟩ = 1 := by
  decide

/-- C8: `ColourDiff(a, a) = 0` for every colour `a`. -/
theorem ColourDiff_self (a : NRGBA) : ColourDiff a a = 0 := by
  simp [ColourDiff]

/-- C9 (code at the failing input): on a 3x3 canvas with depth 2, whatever
`sort.Slice` does with ties, the state after the second iteration has the seed
`(1,1)` in the frontier (in `unfilled` and in `unfilled_map`) although the seed
was the first cell written and is coloured. -/
theorem frontier_holds_coloured_seed (srt : SliceSorter) :
    ∃ s, RenderUpTo srt 3 3 2 2 = .ok s ∧ Pt 1 1 ∈ s.unfilled ∧
      mapHas s.unfilled_map (Pt 1 1) = true ∧ Coloured s.img (Pt 1 1) ∧
      s.trace.head? = some (Pt 1 1) ∧ (Pt 1 1).In s.img.Rect = true := by
  obtain ⟨pal, hpal, hlen, hval⟩ := colour_list_some srt 2 (by decide)
  obtain ⟨s, hs, h1, h2, h3, h4⟩ := seed_reenters srt pal 3 3 (by decide) (by decide)
    (by decide) (fun c hc => (hval c hc).2) (by rw [hlen]; decide)
  obtain ⟨s', hs', _, hrect, _, _⟩ := growth_some srt pal (seedPt 3 3) (initState 3 3)
    (fun c hc => (hval c hc).2) 2 (by rw [hlen]; decide)
  rw [hs] at hs'
  have hss : s = s' := Option.some.inj hs'
  subst hss
  refine ⟨s, ?_, h1, h2, h3, h4, ?_⟩
  · unfold RenderUpTo
    rw [hpal]
    simp only
    rw [hs]
  · rw [hrect]
    decide

/-- C10: `Hue` is 0 for every colour with `R = G = B`. -/
theorem Hue_achromatic (a : NRGBA) (h1 : a.R = a.G) (h2 : a.G = a.B) : Hue a = 0 := by
  simp [Hue, h1, h2]

/-- C10, at mid grey. -/
theorem Hue_achromatic_witness :
    (⟨128, 128, 128, 255⟩ : NRGBA).R = (⟨128, 128, 128, 255⟩ : NRGBA).G ∧
      (⟨128, 128, 128, 255⟩ : NRGBA).G = (⟨128, 128, 128, 255⟩ : NRGBA).B ∧
      Hue ⟨128, 128, 128, 255⟩ = 0 :=
  ⟨rfl, rfl, Hue_achromatic ⟨128, 128, 128, 255⟩ rfl rfl⟩

/-! ## Hue -/

theorem Hue_eq (a : NRGBA) :
    Hue a = normalise ((if chanMax a ≠ chanMin a then
      if chanMax a = a.R then ((a.G : ℚ) - (a.B : ℚ)) / ((chanMax a : ℚ) - (chanMin a : ℚ))
      else if chanMax a = a.G then
        2 + ((a.B : ℚ) - (a.R : ℚ)) / ((chanMax a : ℚ) - (chanMin a : ℚ))
      else 4 + ((a.R : ℚ) - (a.G : ℚ)) / ((chanMax a : ℚ) - (chanMin a : ℚ))
    else 0) * 60) := by
  have hle : chanMin a ≤ chanMax a := by
    unfold chanMin chanMax
    omega
  have hcast : ((chanMax a - chanMin a : Nat) : ℚ) = (chanMax a : ℚ) - (chanMin a : ℚ) :=
    Nat.cast_sub hle
  have h1 : (if a.B < (if a.R < a.G then (a.R, a.G) else (a.G, a.R)).1 then
        (a.B, (if a.R < a.G then (a.R, a.G) else (a.G, a.R)).2)
      else if a.B > (if a.R < a.G then (a.R, a.G) else (a.G, a.R)).2 then
        ((if a.R < a.G then (a.R, a.G) else (a.G, a.R)).1, a.B)
      else (if a.R < a.G then (a.R, a.G) else (a.G, a.R))) = (chanMin a, chanMax a) := by
    unfold chanMin chanMax
    split_ifs <;> simp only [Prod.mk.injEq] <;> omega
  unfold Hue normalise
  simp only [h1, hcast]


theorem frac_bounds (n d : ℚ) (hd : 0 < d) (h1 : -d ≤ n) (h2 : n ≤ d) :
    -1 ≤ n / d ∧ n / d ≤ 1 := by
  constructor
  · rw [le_div_iff₀ hd]
    linarith
  · rw [div_le_iff₀ hd]
    linarith

theorem normalise_range (k q : ℚ) (hk : k = 0 ∨ k = 2 ∨ k = 4) (h1 : -1 ≤ q) (h2 : q ≤ 1) :
    0 ≤ normalise ((k + q) * 60) ∧ normalise ((k + q) * 60) < 360 := by
  unfold normalise
  rcases hk with rfl | rfl | rfl <;> split_ifs with h <;> constructor <;> linarith

theorem chan_bounds (a : NRGBA) :
    chanMin a ≤ a.R ∧ a.R ≤ chanMax a ∧ chanMin a ≤ a.G ∧ a.G ≤ chanMax a ∧
      chanMin a ≤ a.B ∧ a.B ≤ chanMax a := by
  unfold chanMin chanMax
  omega

/-! ## The frontier invariant -/

theorem discardFirst_cons_perm (a : Point) (t : List Point) :
    (discardFirst (a :: t)).Perm t := by
  rcases List.eq_nil_or_concat t with rfl | ⟨init, b, h⟩
  · simp [discardFirst]
  · rw [List.concat_eq_append] at h
    subst h
    have h1 : (a :: (init ++ [b])).getLast? = some b :=
      List.getLast?_concat (a :: init)
    have hlen : (a :: (init ++ [b])).length - 1 = init.length + 1 := by simp
    have h2 : (a :: (init ++ [b])).set (init.length + 1) a = a :: (init ++ [a]) := by
      simp [List.set_append]
    unfold discardFirst
    rw [h1, hlen]
    simp only [List.head?_cons]
    rw [h2]
    simp only [List.set_cons_zero, List.take_succ_cons]
    rw [List.take_left]
    exact (List.perm_append_singleton b init).symm

theorem Reaches_of_rect (img img' : Image) (h : img'.Rect = img.Rect) (p : Point)
    (offs : List (Int × Int)) (q : Point) : Reaches img' p offs q ↔ Reaches img p offs q := by
  unfold Reaches
  rw [h]

theorem Reaches_In (img : Image) (p : Point) (offs : List (Int × Int)) (q : Point)
    (h : Reaches img p offs q) : q.In img.Rect = true := by
  obtain ⟨xy, _, _, hin, hq⟩ := h
  rw [hq]
  exact hin

/-- One step of the expansion keeps `unfilled` free of duplicates and in
agreement with the keys of the map. -/
theorem expandStep_agree (img : Image) (p : Point) (um : List Point × PointMap)
    (xy : Int × Int) (hn : um.1.Nodup) (ha : ∀ q, q ∈ um.1 ↔ mapHas um.2 q = true) :
    (expandStep img p um xy).1.Nodup ∧
      ∀ q, q ∈ (expandStep img p um xy).1 ↔ mapHas (expandStep img p um xy).2 q = true := by
  unfold expandStep
  by_cases hc : (!(mapHas um.2 (p.Add (Pt xy.1 xy.2))) && !(xy.1 == 0 && xy.2 == 0) &&
      (p.Add (Pt xy.1 xy.2)).In img.Rect) = true
  · rw [if_pos hc]
    simp only [Bool.and_eq_true, Bool.not_eq_true'] at hc
    have hnot : p.Add (Pt xy.1 xy.2) ∉ um.1 := by
      intro h
      have := (ha _).mp h
      rw [hc.1.1] at this
      exact absurd this (by decide)
    constructor
    · exact List.Nodup.append hn (List.nodup_singleton _) (by
        intro a h1 h2
        rw [List.mem_singleton] at h2
        exact hnot (h2 ▸ h1))
    · intro q
      simp only [List.mem_append, List.mem_singleton]
      rw [mapHas_mapSet, ha q]
      exact or_comm
  · rw [if_neg hc]
    exact ⟨hn, ha⟩

theorem foldl_expandStep_agree (img : Image) (p : Point) (offs : List (Int × Int))
    (um : List Point × PointMap) (hn : um.1.Nodup)
    (ha : ∀ q, q ∈ um.1 ↔ mapHas um.2 q = true) :
    (offs.foldl (expandStep img p) um).1.Nodup ∧
      ∀ q, q ∈ (offs.foldl (expandStep img p) um).1 ↔
        mapHas (offs.foldl (expandStep img p) um).2 q = true := by
  induction offs generalizing um with
  | nil => exact ⟨hn, ha⟩
  | cons xy offs ih =>
    rw [List.foldl_cons]
    obtain ⟨h1, h2⟩ := expandStep_agree img p um xy hn ha
    exact ih _ h1 h2

theorem expand_agree (img : Image) (p : Point) (u : List Point) (m : PointMap)
    (hn : u.Nodup) (ha : ∀ q, q ∈ u ↔ mapHas m q = true) :
    (expand img p u m).1.Nodup ∧
      ∀ q, q ∈ (expand img p u m).1 ↔ mapHas (expand img p u m).2 q = true :=
  foldl_expandStep_agree img p offsets (u, m) hn ha

/-- On a canvas of at least two cells every in-bounds point has an in-bounds neighbour. -/
theorem has_neighbour (img : Image) (x y : Nat) (hr : img.Rect = Rect 0 0 x y)
    (hxy : 2 ≤ x * y) (p : Point) (hp : p.In img.Rect = true) :
    ∃ q, Reaches img p offsets q := by
  have hp' := hp
  rw [hr, In_Rect] at hp'
  obtain ⟨h1, h2, h3, h4⟩ := hp'
  by_cases hx2 : 2 ≤ x
  · by_cases hpx : 1 ≤ p.X
    · refine ⟨p.Add (Pt (-1) 0), (-1, 0), by decide, by decide, ?_, rfl⟩
      rw [hr, In_Rect]
      simp only [Pt, Point.Add]
      omega
    · refine ⟨p.Add (Pt 1 0), (1, 0), by decide, by decide, ?_, rfl⟩
      rw [hr, In_Rect]
      simp only [Pt, Point.Add]
      omega
  · have hx1 : x = 1 := by omega
    subst hx1
    have hy2 : 2 ≤ y := by omega
    by_cases hpy : 1 ≤ p.Y
    · refine ⟨p.Add (Pt 0 (-1)), (0, -1), by decide, by decide, ?_, rfl⟩
      rw [hr, In_Rect]
      simp only [Pt, Point.Add]
      omega
    · refine ⟨p.Add (Pt 0 1), (0, 1), by decide, by decide, ?_, rfl⟩
      rw [hr, In_Rect]
      simp only [Pt, Point.Add]
      omega

/-- The write and the expansion that end an iteration keep the invariant,
whatever point `curr` was selected, provided `curr` is in-bounds and `u0`, `m0`
are the frontier without `curr`. -/
theorem step_inv (x y : Nat) (s s' : State) (c : NRGBA) (curr : Point) (u0 : List Point)
    (m0 : PointMap) (hinv : FrontierInv x y s) (h1 : curr.In s.img.Rect = true)
    (h2 : u0.Nodup) (h3 : ∀ q, q ∈ u0 ↔ mapHas m0 q = true)
    (h4 : ∀ q, mapHas m0 q = true ↔ (mapHas s.unfilled_map q = true ∧ q ≠ curr))
    (h5 : ∀ q ∈ u0, q.In s.img.Rect = true)
    (himg : s'.img = s.img.SetNRGBA curr.X curr.Y c)
    (hu : s'.unfilled = (expand s'.img curr u0 m0).1)
    (hm : s'.unfilled_map = (expand s'.img curr u0 m0).2)
    (ht : s'.trace = s.trace ++ [curr]) :
    FrontierInv x y s' := by
  have hrect : s'.img.Rect = s.img.Rect := by rw [himg]; exact SetNRGBA_rect _ _ _ _
  obtain ⟨hnd, hag⟩ := expand_agree s'.img curr u0 m0 h2 h3
  rw [← hu, ← hm] at hag
  rw [← hu] at hnd
  have hsz : s'.img.Sized x y := by rw [himg]; exact SetNRGBA_sized _ x y _ _ _ hinv.sized
  refine ⟨hsz, hnd, hag, ?_, ?_, ?_, ?_⟩
  · intro q hq
    rw [hu, expand_mem] at hq
    rcases hq with hq | ⟨_, hq⟩
    · rw [hrect]
      exact h5 q hq
    · exact Reaches_In _ _ _ _ hq
  · intro p hp
    rw [ht] at hp
    rw [hrect]
    rcases List.mem_append.mp hp with hp | hp
    · exact hinv.traceIn p hp
    · rw [List.mem_singleton.mp hp]
      exact h1
  · intro w hw q hq
    rw [ht] at hw
    rw [hm, expand_has, ht]
    rcases List.mem_append.mp hw with hw | hw
    · rw [Reaches_of_rect s.img _ hrect] at hq
      rcases hinv.complete w hw q hq with hm' | ht'
      · by_cases hqc : q = curr
        · exact Or.inr (List.mem_append.mpr (Or.inr (List.mem_singleton.mpr hqc)))
        · exact Or.inl (Or.inl ((h4 q).mpr ⟨hm', hqc⟩))
      · exact Or.inr (List.mem_append.mpr (Or.inl ht'))
    · rw [List.mem_singleton.mp hw] at hq
      exact Or.inl (Or.inr hq)
  · intro _ hxy
    obtain ⟨q, hq⟩ := has_neighbour s'.img x y hsz.1 hxy curr (by rw [hrect]; exact h1)
    intro hnil
    have hmem : q ∈ s'.unfilled :=
      (hag q).mpr (by rw [hm]; exact (expand_has _ _ _ _ _).mpr (Or.inr hq))
    rw [hnil] at hmem
    exact absurd hmem (List.not_mem_nil q)

/-- The iteration body when the frontier is empty: the seed is written. -/
theorem stepWith_seed (c : NRGBA) (start : Point) (s : State) (sorted : List Point)
    (hu : s.unfilled = []) :
    stepWith c start s sorted =
      { img := s.img.SetNRGBA start.X start.Y c
        unfilled := (expand (s.img.SetNRGBA start.X start.Y c) start [] s.unfilled_map).1
        unfilled_map := (expand (s.img.SetNRGBA start.X start.Y c) start [] s.unfilled_map).2
        trace := s.trace ++ [start] } := by
  unfold stepWith
  simp [hu]

/-- The iteration body when the frontier is not empty and the sort left
`a :: t` behind: `a` is removed and written. -/
theorem stepWith_cons (c : NRGBA) (start : Point) (s : State) (a : Point) (t : List Point)
    (hu : s.unfilled ≠ []) :
    stepWith c start s (a :: t) =
      { img := s.img.SetNRGBA a.X a.Y c
        unfilled := (expand (s.img.SetNRGBA a.X a.Y c) a (discardFirst (a :: t))
          (mapDelete s.unfilled_map a)).1
        unfilled_map := (expand (s.img.SetNRGBA a.X a.Y c) a (discardFirst (a :: t))
          (mapDelete s.unfilled_map a)).2
        trace := s.trace ++ [a] } := by
  unfold stepWith
  have : ¬ s.unfilled.length = 0 := fun h => hu (List.length_eq_zero.mp h)
  simp [this]

/-- An iteration keeps the invariant, whatever rearrangement of the frontier
the sort returns. -/
theorem stepWith_inv (x y : Nat) (s : State) (c : NRGBA) (start : Point) (sorted : List Point)
    (hinv : FrontierInv x y s) (hstart : start.In s.img.Rect = true)
    (hperm : sorted.Perm s.unfilled) : FrontierInv x y (stepWith c start s sorted) := by
  by_cases hu : s.unfilled = []
  · have e := stepWith_seed c start s sorted hu
    refine step_inv x y s (stepWith c start s sorted) c start [] s.unfilled_map hinv hstart
      List.nodup_nil ?_ ?_ ?_ (by rw [e]) (by rw [e]) (by rw [e]) (by rw [e])
    · intro q
      rw [← hinv.agree q, hu]
    · intro q
      rw [← hinv.agree q, hu]
      simp
    · intro q hq
      exact absurd hq (List.not_mem_nil q)
  · match sorted, hperm with
    | [], hperm => exact absurd hperm.symm.eq_nil hu
    | a :: t, hperm =>
      have hnd : (a :: t).Nodup := hperm.nodup_iff.mpr hinv.nodup
      have hat : a ∉ t := (List.nodup_cons.mp hnd).1
      have hdp := discardFirst_cons_perm a t
      have hmem : ∀ q, q ∈ discardFirst (a :: t) ↔ (q ∈ s.unfilled ∧ q ≠ a) := by
        intro q
        rw [hdp.mem_iff, ← hperm.mem_iff, List.mem_cons]
        constructor
        · intro h
          exact ⟨Or.inr h, fun e => hat (e ▸ h)⟩
        · rintro ⟨h | h, hne⟩
          · exact absurd h hne
          · exact h
      have e := stepWith_cons c start s a t hu
      refine step_inv x y s (stepWith c start s (a :: t)) c a (discardFirst (a :: t))
        (mapDelete s.unfilled_map a) hinv
        (hinv.inBounds a (hperm.mem_iff.mp (List.mem_cons_self a t)))
        (hdp.nodup_iff.mpr (List.nodup_cons.mp hnd).2) ?_ ?_ ?_
        (by rw [e]) (by rw [e]) (by rw [e]) (by rw [e])
      · intro q
        rw [hmem, mapHas_mapDelete, hinv.agree q]
        exact and_comm
      · intro q
        rw [mapHas_mapDelete]
        exact and_comm
      · intro q hq
        exact hinv.inBounds q ((hmem q).mp hq).1

theorem initState_inv (x y : Nat) : FrontierInv x y (initState x y) where
  sized := initState_sized x y
  nodup := List.nodup_nil
  agree q := by simp [initState, mapHas]
  inBounds q hq := absurd hq (List.not_mem_nil q)
  traceIn p hp := absurd hp (List.not_mem_nil p)
  complete w hw := absurd hw (List.not_mem_nil w)
  nonempty h := absurd rfl h

/-- The invariant holds at every iteration boundary within the palette. -/
theorem growth_inv (srt : SliceSorter) (pal : List NRGBA) (x y : Nat) (hx : 0 < x) (hy : 0 < y)
    (n : Nat) (hn : n ≤ pal.length) :
    ∃ s, growth srt pal (seedPt x y) (initState x y) n = some s ∧ FrontierInv x y s ∧
      s.trace.length = n := by
  induction n with
  | zero => exact ⟨initState x y, rfl, initState_inv x y, rfl⟩
  | succ n ih =>
    obtain ⟨s, hs, hinv, hlen⟩ := ih (by omega)
    have hc : pal[n]? = some pal[n] := List.getElem?_eq_getElem (by omega)
    refine ⟨_, by rw [growth_succ, hs, Option.some_bind,
      iteration_eq_stepWith srt pal _ n s _ hc], ?_, ?_⟩
    · exact stepWith_inv x y s _ _ _ hinv
        (by rw [hinv.sized.1]; exact seedPt_In x y hx hy) (srt.perm _ _)
    · simp [stepWith, hlen]

/-! ## Writes to other cells -/

theorem pixOffset_eq (img : Image) (x y : Nat) (px py : Int) (h : img.Sized x y)
    (hin : (Pt px py).In img.Rect = true) :
    img.PixOffset px py = py.toNat * x + px.toNat ∧ px.toNat < x := by
  rw [h.1, In_Rect] at hin
  obtain ⟨h1, h2, h3, h4⟩ := hin
  simp only [Pt] at h1 h2 h3 h4
  obtain ⟨a, rfl⟩ := Int.eq_ofNat_of_zero_le h1
  obtain ⟨b, rfl⟩ := Int.eq_ofNat_of_zero_le h3
  have ha : a < x := by exact_mod_cast h2
  unfold Image.PixOffset
  rw [h.1, h.2.1]
  simp only [Rect]
  have hmin : min (0 : Int) (y : Int) = 0 := by omega
  have hmin2 : min (0 : Int) (x : Int) = 0 := by omega
  have e : ((b : Int) * (x : Int) + (a : Int)) = ((b * x + a : Nat) : Int) := by push_cast; ring
  rw [hmin, hmin2, Int.sub_zero, Int.sub_zero, e, Int.toNat_ofNat, Int.toNat_ofNat,
    Int.toNat_ofNat]
  exact ⟨rfl, ha⟩

/-- Two in-bounds points with the same pixel offset are the same point. -/
theorem pixOffset_inj (img : Image) (x y : Nat) (px py qx qy : Int) (h : img.Sized x y)
    (hp : (Pt px py).In img.Rect = true) (hq : (Pt qx qy).In img.Rect = true)
    (e : img.PixOffset px py = img.PixOffset qx qy) : px = qx ∧ py = qy := by
  obtain ⟨e1, l1⟩ := pixOffset_eq img x y px py h hp
  obtain ⟨e2, l2⟩ := pixOffset_eq img x y qx qy h hq
  rw [e1, e2] at e
  rw [h.1, In_Rect] at hp hq
  simp only [Pt] at hp hq
  have hx : 0 < x := by omega
  have m1 : (py.toNat * x + px.toNat) % x = px.toNat := by
    rw [Nat.mul_comm, Nat.mul_add_mod, Nat.mod_eq_of_lt l1]
  have m2 : (qy.toNat * x + qx.toNat) % x = qx.toNat := by
    rw [Nat.mul_comm, Nat.mul_add_mod, Nat.mod_eq_of_lt l2]
  have d1 : (py.toNat * x + px.toNat) / x = py.toNat := by
    rw [Nat.mul_comm, Nat.mul_add_div hx, Nat.div_eq_of_lt l1, Nat.add_zero]
  have d2 : (qy.toNat * x + qx.toNat) / x = qy.toNat := by
    rw [Nat.mul_comm, Nat.mul_add_div hx, Nat.div_eq_of_lt l2, Nat.add_zero]
  have ex : px.toNat = qx.toNat := by rw [← m1, ← m2, e]
  have ey : py.toNat = qy.toNat := by rw [← d1, ← d2, e]
  omega

/-- A write leaves every other cell as it was. -/
theorem NRGBAAt_SetNRGBA_other (img : Image) (x y : Nat) (p q : Point) (c : NRGBA)
    (h : img.Sized x y) (hne : q ≠ p) :
    (img.SetNRGBA p.X p.Y c).NRGBAAt q.X q.Y = img.NRGBAAt q.X q.Y := by
  unfold Image.SetNRGBA
  by_cases hp : (Pt p.X p.Y).In img.Rect = true
  · simp only [hp, Bool.not_true, Bool.false_eq_true, if_false]
    unfold Image.NRGBAAt
    simp only
    by_cases hq : (Pt q.X q.Y).In img.Rect = true
    · simp only [hq, Bool.not_true, Bool.false_eq_true, if_false]
      simp only [Image.PixOffset]
      have hoff : img.PixOffset p.X p.Y ≠ img.PixOffset q.X q.Y := by
        intro e
        obtain ⟨e1, e2⟩ := pixOffset_inj img x y p.X p.Y q.X q.Y h hp hq e
        apply hne
        cases p
        cases q
        simp only at e1 e2
        rw [e1, e2]
      simp only [Image.PixOffset] at hoff
      rw [List.getD_eq_getElem?_getD, List.getD_eq_getElem?_getD, List.getElem?_set_ne hoff]
    · simp [hq]
  · simp [hp]

/-- A fresh image holds the zero colour everywhere. -/
theorem NRGBAAt_NewNRGBA (r : Rectangle) (qx qy : Int) :
    (NewNRGBA r).NRGBAAt qx qy = NRGBA.zero := by
  unfold Image.NRGBAAt NewNRGBA
  simp only
  split
  · rfl
  · rw [List.getD_eq_getElem?_getD]
    cases hget : (List.replicate ((r.Max.X - r.Min.X).toNat * (r.Max.Y - r.Min.Y).toNat)
        NRGBA.zero)[Image.PixOffset _ qx qy]? with
    | none => rfl
    | some v =>
      have := List.getElem?_mem hget
      rw [List.mem_replicate] at this
      simp [this.2]

/-- Writing a colour of alpha 255 colours the written cell and no other. -/
theorem Coloured_SetNRGBA (img : Image) (x y : Nat) (p q : Point) (c : NRGBA)
    (h : img.Sized x y) (hp : p.In img.Rect = true) (hc : c.A = 255) :
    Coloured (img.SetNRGBA p.X p.Y c) q ↔ q = p ∨ Coloured img q := by
  unfold Coloured
  by_cases hqp : q = p
  · subst hqp
    rw [NRGBAAt_SetNRGBA_self img x y q.X q.Y c h hp]
    simp [hc]
  · rw [NRGBAAt_SetNRGBA_other img x y p q c h hqp]
    simp [hqp]

/-- The expansion looks at the image only through its bounds. -/
theorem expand_of_rect (img img' : Image) (h : img'.Rect = img.Rect) (p : Point)
    (u : List Point) (m : PointMap) : expand img' p u m = expand img p u m := by
  unfold expand
  have : expandStep img' p = expandStep img p := by
    funext um xy
    unfold expandStep
    rw [h]
  rw [this]

/-! ## The fitness as a sum -/

theorem ColourFitness_eq_foldl (img : Image) (c : NRGBA) (p : Point) :
    ColourFitness img c p = offsets.foldl (fitnessStep img c p) 0 := rfl

theorem foldl_fitnessStep (img : Image) (c : NRGBA) (p : Point) (offs : List (Int × Int))
    (init : Int) :
    offs.foldl (fitnessStep img c p) init =
      init + ((offs.filter fun xy =>
          !(xy.1 == 0 && xy.2 == 0) && (p.Add (Pt xy.1 xy.2)).In img.Rect).map
        fun xy => ColourDiff c (img.NRGBAAt (p.Add (Pt xy.1 xy.2)).X
          (p.Add (Pt xy.1 xy.2)).Y)).sum := by
  induction offs generalizing init with
  | nil => simp
  | cons xy offs ih =>
    rw [List.foldl_cons, ih]
    unfold fitnessStep
    by_cases hc : (!(xy.1 == 0 && xy.2 == 0) && (p.Add (Pt xy.1 xy.2)).In img.Rect) = true
    · rw [if_pos hc]
      simp only [List.filter_cons, hc, if_true, List.map_cons, List.sum_cons]
      ring
    · rw [if_neg hc]
      simp only [List.filter_cons, hc, if_false, Bool.false_eq_true]

/-- `ColourFitness(c, p)` is the sum of `ColourDiff(c, ·)` over the cells held by
the in-bounds neighbours of `p`. -/
theorem ColourFitness_eq_sum (img : Image) (c : NRGBA) (p : Point) :
    ColourFitness img c p =
      (((neighbours p).filter fun q => q.In img.Rect).map
        fun q => ColourDiff c (img.NRGBAAt q.X q.Y)).sum := by
  rw [ColourFitness_eq_foldl, foldl_fitnessStep, Int.zero_add]
  unfold neighbours
  rw [List.filter_map, List.map_map, List.filter_filter]
  have hf : (offsets.filter fun xy =>
      !(xy.1 == 0 && xy.2 == 0) && (p.Add (Pt xy.1 xy.2)).In img.Rect) =
      offsets.filter fun a => ((fun q : Point => q.In img.Rect) ∘
        fun xy : Int × Int => p.Add (Pt xy.1 xy.2)) a && !(a.1 == 0 && a.2 == 0) := by
    apply List.filter_congr
    intro a _
    simp only [Function.comp]
    exact Bool.and_comm _ _
  rw [hf]
  rfl

/-! ## The head of the sorted frontier -/

/-- The first element `sort.Slice` leaves in a non-empty frontier is a member
of the frontier whose fitness no other member exceeds. -/
theorem sorted_head_max (srt : SliceSorter) (img : Image) (c : NRGBA) (u : List Point)
    (start : Point) (hu : u ≠ []) :
    (srt.sort (fitnessMore img c) u).headD start ∈ u ∧
      ∀ q ∈ u, ColourFitness img c q ≤
        ColourFitness img c ((srt.sort (fitnessMore img c) u).headD start) := by
  have hperm := srt.perm (fitnessMore img c) u
  have hsorted := srt.sorted (fitnessMore img c) u (fitnessMore_strictWeak img c)
  match hm : srt.sort (fitnessMore img c) u, hperm, hsorted with
  | [], hperm, _ => exact absurd hperm.symm.eq_nil hu
  | a :: t, hperm, hsorted =>
    simp only [List.headD_cons]
    refine ⟨hperm.mem_iff.mp (List.mem_cons_self a t), ?_⟩
    intro q hq
    rcases List.mem_cons.mp (hperm.mem_iff.mpr hq) with rfl | hqt
    · exact le_refl _
    · have := (List.pairwise_cons.mp hsorted).1 q hqt
      unfold fitnessMore at this
      simpa using this

/-! ## Every iteration boundary of `Render` -/

/-- What an iteration writes: one palette colour at one point, which is the
seed when the frontier is empty and the head of the sorted frontier otherwise. -/
theorem stepWith_writes (c : NRGBA) (start : Point) (s : State) (sorted : List Point) :
    ∃ p, (stepWith c start s sorted).img = s.img.SetNRGBA p.X p.Y c ∧
      (stepWith c start s sorted).trace = s.trace ++ [p] ∧
      (s.unfilled = [] → p = start) ∧ (s.unfilled ≠ [] → p = sorted.headD start) := by
  by_cases hu : s.unfilled = []
  · rw [stepWith_seed c start s sorted hu]
    exact ⟨start, rfl, rfl, fun _ => rfl, fun h => absurd hu h⟩
  · have hl : ¬ s.unfilled.length = 0 := fun h => hu (List.length_eq_zero.mp h)
    refine ⟨sorted.headD start, ?_, ?_, fun h => absurd h hu, fun _ => rfl⟩
    · unfold stepWith
      simp [hl]
    · unfold stepWith
      simp [hl]

/-- At every iteration boundary within the palette, the invariant holds and the
coloured cells are exactly the written points. -/
theorem growth_boundary (srt : SliceSorter) (pal : List NRGBA) (x y : Nat) (hx : 0 < x)
    (hy : 0 < y) (hA : ∀ c ∈ pal, c.A = 255) (n : Nat) (hn : n ≤ pal.length) :
    ∃ s, growth srt pal (seedPt x y) (initState x y) n = some s ∧ FrontierInv x y s ∧
      s.trace.length = n ∧ ∀ q, Coloured s.img q ↔ q ∈ s.trace := by
  induction n with
  | zero =>
    refine ⟨initState x y, rfl, initState_inv x y, rfl, ?_⟩
    intro q
    unfold Coloured initState
    simp only
    rw [NRGBAAt_NewNRGBA]
    simp [NRGBA.zero]
  | succ n ih =>
    obtain ⟨s, hs, hinv, hlen, hcol⟩ := ih (by omega)
    have hlt : n < pal.length := by omega
    have hc : pal[n]? = some pal[n] := List.getElem?_eq_getElem hlt
    have hinv' : FrontierInv x y (stepWith pal[n] (seedPt x y) s
        (srt.sort (fitnessMore s.img pal[n]) s.unfilled)) :=
      stepWith_inv x y s _ _ _ hinv (by rw [hinv.sized.1]; exact seedPt_In x y hx hy)
        (srt.perm _ _)
    obtain ⟨p, himg, htr, _, _⟩ := stepWith_writes pal[n] (seedPt x y) s
      (srt.sort (fitnessMore s.img pal[n]) s.unfilled)
    have hp : p.In s.img.Rect = true := by
      have := hinv'.traceIn p (by rw [htr]; simp)
      rw [himg, SetNRGBA_rect] at this
      exact this
    refine ⟨_, by rw [growth_succ, hs, Option.some_bind,
      iteration_eq_stepWith srt pal _ n s _ hc], hinv', ?_, ?_⟩
    · rw [htr, List.length_append, hlen]
      rfl
    · intro q
      rw [himg, htr, Coloured_SetNRGBA s.img x y p q pal[n] hinv.sized hp
        (hA _ (List.getElem_mem _)), hcol q, List.mem_append, List.mem_singleton]
      exact or_comm

/-- The state of `Render` at every iteration boundary within the palette. -/
theorem RenderUpTo_boundary (srt : SliceSorter) (x y d n : Nat) (hx : 0 < x) (hy : 0 < y)
    (hd : d ≠ 1) (hn : n ≤ (d + 1) ^ 3) :
    ∃ pal s, colour_list srt d = some pal ∧ pal.length = (d + 1) ^ 3 ∧
      growth srt pal (seedPt x y) (initState x y) n = some s ∧
      RenderUpTo srt x y d n = .ok s ∧ FrontierInv x y s ∧ s.trace.length = n ∧
      ∀ q, Coloured s.img q ↔ q ∈ s.trace := by
  obtain ⟨pal, hpal, hlen, hval⟩ := colour_list_some srt d hd
  obtain ⟨s, hs, hinv, htl, hcol⟩ := growth_boundary srt pal x y hx hy
    (fun c hc => (hval c hc).2) n (by rw [hlen]; exact hn)
  refine ⟨pal, s, hpal, hlen, hs, ?_, hinv, htl, hcol⟩
  unfold RenderUpTo
  rw [hpal]
  simp only
  rw [hs]

/-! ## The first two iterations -/

theorem mem_canvasPoints (x y : Nat) (q : Point) :
    q ∈ canvasPoints x y ↔ q.In (Rect 0 0 x y) = true := by
  rw [In_Rect]
  unfold canvasPoints
  simp only [List.mem_flatMap, List.mem_map, List.mem_range]
  constructor
  · rintro ⟨i, hi, j, hj, rfl⟩
    simp at hj
    obtain ⟨k, hk, rfl⟩ := hj
    simp only [Pt]
    omega
  · rintro ⟨h1, h2, h3, h4⟩
    refine ⟨q.X.toNat, by omega, q.Y, ?_, ?_⟩
    · simp
      exact ⟨q.Y.toNat, by omega, by omega⟩
    · cases q
      simp only [Pt, Point.mk.injEq]
      simp only at h1 h2 h3 h4
      exact ⟨Int.toNat_of_nonneg h1, trivial⟩

/-- The state after the first iteration: the seed holds the first palette
colour, every other cell is untouched, and the frontier (slice and map) is
exactly the set of in-bounds neighbours of the seed, each once. -/
theorem first_boundary (srt : SliceSorter) (pal : List NRGBA) (x y : Nat) (c : NRGBA)
    (hx : 0 < x) (hy : 0 < y) (hc : pal[0]? = some c) :
    ∃ s, growth srt pal (seedPt x y) (initState x y) 1 = some s ∧
      s.trace = [seedPt x y] ∧ s.img.Rect = Rect 0 0 x y ∧
      s.img.NRGBAAt (seedPt x y).X (seedPt x y).Y = c ∧
      (∀ q : Point, q ≠ seedPt x y → s.img.NRGBAAt q.X q.Y = NRGBA.zero) ∧
      s.unfilled.Nodup ∧
      (∀ q, q ∈ s.unfilled ↔ Reaches s.img (seedPt x y) offsets q) ∧
      (∀ q, mapHas s.unfilled_map q = true ↔ Reaches s.img (seedPt x y) offsets q) ∧
      s.unfilled = (expand (initState x y).img (seedPt x y) [] []).1 := by
  have hsz := initState_sized x y
  have hin : (Pt (seedPt x y).X (seedPt x y).Y).In (initState x y).img.Rect = true := by
    rw [hsz.1]
    exact seedPt_In x y hx hy
  have hg : growth srt pal (seedPt x y) (initState x y) 1 =
      some (stepWith c (seedPt x y) (initState x y)
        (srt.sort (fitnessMore (initState x y).img c) (initState x y).unfilled)) := by
    rw [growth_succ]
    show (some (initState x y)).bind _ = _
    rw [Option.some_bind, iteration_eq_stepWith srt pal _ 0 _ c hc]
  have e := stepWith_seed c (seedPt x y) (initState x y)
    (srt.sort (fitnessMore (initState x y).img c) (initState x y).unfilled) rfl
  have hm0 : (initState x y).unfilled_map = [] := rfl
  have ht0 : (initState x y).trace = [] := rfl
  rw [hm0, ht0, List.nil_append] at e
  generalize stepWith c (seedPt x y) (initState x y)
    (srt.sort (fitnessMore (initState x y).img c) (initState x y).unfilled) = s1 at hg e
  have e1 : s1.img = (initState x y).img.SetNRGBA (seedPt x y).X (seedPt x y).Y c := by rw [e]
  have e2 : s1.unfilled = (expand s1.img (seedPt x y) [] []).1 := by rw [e]
  have e3 : s1.unfilled_map = (expand s1.img (seedPt x y) [] []).2 := by rw [e]
  have e4 : s1.trace = [seedPt x y] := by rw [e]
  have hrect : s1.img.Rect = Rect 0 0 x y := by
    rw [e1, SetNRGBA_rect]
    exact hsz.1
  refine ⟨s1, hg, e4, hrect, ?_, ?_, ?_, ?_, ?_, ?_⟩
  · rw [e1]
    exact NRGBAAt_SetNRGBA_self _ x y _ _ c hsz hin
  · intro q hq
    rw [e1, NRGBAAt_SetNRGBA_other _ x y (seedPt x y) q c hsz hq]
    exact NRGBAAt_NewNRGBA _ _ _
  · rw [e2]
    exact (expand_agree _ _ [] [] List.nodup_nil (by intro q; simp [mapHas])).1
  · intro q
    rw [e2, expand_mem]
    simp [mapHas_nil]
  · intro q
    rw [e3, expand_has]
    simp [mapHas_nil]
  · rw [e2, expand_of_rect (initState x y).img s1.img (by rw [hrect]; exact hsz.1.symm)]

/-! ## An iteration on a non-empty frontier -/

/-- What an iteration does when the frontier is not empty (and free of
duplicates): it selects the head `a` of the sorted frontier, a member of the
frontier of maximal fitness; the removal takes exactly `a` out of the slice and
of the map; `a` is written; and the expansion adds the in-bounds neighbours of
`a` that are not keys of the map. -/
theorem iteration_grow_spec (srt : SliceSorter) (pal : List NRGBA) (start : Point) (i : Nat)
    (s : State) (c : NRGBA) (hc : pal[i]? = some c) (hne : s.unfilled ≠ [])
    (hnd : s.unfilled.Nodup) :
    ∃ s' a, iteration srt pal start i s = some s' ∧
      a = (srt.sort (fitnessMore s.img c) s.unfilled).headD start ∧
      a ∈ s.unfilled ∧
      (∀ q ∈ s.unfilled, ColourFitness s.img c q ≤ ColourFitness s.img c a) ∧
      s'.trace = s.trace ++ [a] ∧ s'.img = s.img.SetNRGBA a.X a.Y c ∧
      (discardFirst (srt.sort (fitnessMore s.img c) s.unfilled)).Nodup ∧
      (∀ q, q ∈ discardFirst (srt.sort (fitnessMore s.img c) s.unfilled) ↔
        q ∈ s.unfilled ∧ q ≠ a) ∧
      (∀ q, mapHas (mapDelete s.unfilled_map a) q = true ↔
        mapHas s.unfilled_map q = true ∧ q ≠ a) ∧
      (∀ q, q ∈ s'.unfilled ↔ (q ∈ s.unfilled ∧ q ≠ a) ∨
        (mapHas (mapDelete s.unfilled_map a) q = false ∧ Reaches s'.img a offsets q)) ∧
      (∀ q, mapHas s'.unfilled_map q = true ↔
        (mapHas s.unfilled_map q = true ∧ q ≠ a) ∨ Reaches s'.img a offsets q) := by
  obtain ⟨hmem, hmax⟩ := sorted_head_max srt s.img c s.unfilled start hne
  have hperm := srt.perm (fitnessMore s.img c) s.unfilled
  have hit := iteration_eq_stepWith srt pal start i s c hc
  generalize srt.sort (fitnessMore s.img c) s.unfilled = sorted at hmem hmax hperm hit
  match sorted, hperm, hmem, hmax, hit with
  | [], hperm, _, _, _ => exact absurd hperm.symm.eq_nil hne
  | a :: t, hperm, hmem, hmax, hit =>
    simp only [List.headD_cons] at hmem hmax ⊢
    have e := stepWith_cons c start s a t hne
    generalize stepWith c start s (a :: t) = s' at hit e
    have e1 : s'.img = s.img.SetNRGBA a.X a.Y c := by rw [e]
    have e2 : s'.unfilled =
        (expand s'.img a (discardFirst (a :: t)) (mapDelete s.unfilled_map a)).1 := by rw [e]
    have e3 : s'.unfilled_map =
        (expand s'.img a (discardFirst (a :: t)) (mapDelete s.unfilled_map a)).2 := by rw [e]
    have e4 : s'.trace = s.trace ++ [a] := by rw [e]
    have hnd' : (a :: t).Nodup := hperm.nodup_iff.mpr hnd
    have hat : a ∉ t := (List.nodup_cons.mp hnd').1
    have hdp := discardFirst_cons_perm a t
    have hdm : ∀ q, q ∈ discardFirst (a :: t) ↔ (q ∈ s.unfilled ∧ q ≠ a) := by
      intro q
      rw [hdp.mem_iff, ← hperm.mem_iff, List.mem_cons]
      constructor
      · intro h
        exact ⟨Or.inr h, fun e => hat (e ▸ h)⟩
      · rintro ⟨h | h, hne⟩
        · exact absurd h hne
        · exact h
    have hmd : ∀ q, mapHas (mapDelete s.unfilled_map a) q = true ↔
        mapHas s.unfilled_map q = true ∧ q ≠ a := by
      intro q
      rw [mapHas_mapDelete]
      exact and_comm
    refine ⟨s', a, hit, rfl, hmem, hmax, e4, e1,
      hdp.nodup_iff.mpr (List.nodup_cons.mp hnd').2, hdm, hmd, ?_, ?_⟩
    · intro q
      rw [e2, expand_mem, hdm]
    · intro q
      rw [e3, expand_has, hmd]

/-! ## The 3x3 canvas after two iterations -/

theorem seedNeighbours33_eq :
    (expand (initState 3 3).img (seedPt 3 3) [] []).1 = seedNeighbours33 := by
  decide

/-- On a 3x3 canvas with depth 2, whatever the sort does: the second iteration
selects one of the eight neighbours `a` of the seed, and afterwards the frontier
holds every cell of the canvas other than `a`, each once, the coloured seed
among them. -/
theorem boundary_two_3_3 (srt : SliceSorter) :
    ∃ s1 s2 a, RenderUpTo srt 3 3 2 1 = .ok s1 ∧ RenderUpTo srt 3 3 2 2 = .ok s2 ∧
      s1.trace = [Pt 1 1] ∧ s1.unfilled = seedNeighbours33 ∧
      (∀ q, mapHas s1.unfilled_map q = true ↔ q ∈ seedNeighbours33) ∧
      (∀ q, Coloured s1.img q ↔ q ∈ s1.trace) ∧
      a ∈ seedNeighbours33 ∧ s2.trace = [Pt 1 1, a] ∧ s2.unfilled.Nodup ∧
      (∀ q, q ∈ s2.unfilled ↔ q ∈ canvasPoints 3 3 ∧ q ≠ a) ∧
      (∀ q, Coloured s2.img q ↔ q ∈ s2.trace) := by
  obtain ⟨pal, s1, hpal, hlen, hg1, hr1, hinv1, _, hcol1⟩ :=
    RenderUpTo_boundary srt 3 3 2 1 (by decide) (by decide) (by decide) (by decide)
  obtain ⟨pal', s2, hpal', _, hg2, hr2, hinv2, _, hcol2⟩ :=
    RenderUpTo_boundary srt 3 3 2 2 (by decide) (by decide) (by decide) (by decide)
  rw [hpal] at hpal'
  have hpp : pal = pal' := Option.some.inj hpal'
  subst hpp
  have hc0 : pal[0]? = some pal[0] := List.getElem?_eq_getElem (by rw [hlen]; decide)
  have hc1 : pal[1]? = some pal[1] := List.getElem?_eq_getElem (by rw [hlen]; decide)
  obtain ⟨s1', hg1', ht1, hrect1, _, _, _, hm1, hk1, hu1⟩ :=
    first_boundary srt pal 3 3 pal[0] (by decide) (by decide) hc0
  rw [hg1] at hg1'
  have hss : s1 = s1' := Option.some.inj hg1'
  subst hss
  rw [seedNeighbours33_eq] at hu1
  have hne : s1.unfilled ≠ [] := by rw [hu1]; decide
  obtain ⟨s2', a, hit, _, ha, _, ht2, himg2, _, _, hmd, hu2, _⟩ :=
    iteration_grow_spec srt pal (seedPt 3 3) 1 s1 pal[1] hc1 hne hinv1.nodup
  rw [growth_succ, hg1, Option.some_bind, hit] at hg2
  have hss2 : s2' = s2 := Option.some.inj hg2
  subst hss2
  have hseed : seedPt 3 3 = Pt 1 1 := by decide
  have hrect2 : s2'.img.Rect = s1.img.Rect := by rw [himg2, SetNRGBA_rect]
  have hkeys : ∀ q, mapHas s1.unfilled_map q = true ↔ q ∈ seedNeighbours33 := by
    intro q
    rw [hk1, ← hm1, hu1]
  have hcanvas : ∀ q, q ∈ canvasPoints 3 3 ↔ q ∈ seedNeighbours33 ∨ q = Pt 1 1 := by
    intro q
    constructor
    · intro h
      revert q
      decide
    · rintro (h | rfl)
      · revert q
        decide
      · decide
  have hnot : Pt 1 1 ∉ seedNeighbours33 := by decide
  refine ⟨s1, s2', a, hr1, hr2, by rw [ht1, hseed], hu1, hkeys, hcol1, by rw [← hu1]; exact ha,
    by rw [ht2, ht1, hseed]; rfl, hinv2.nodup, ?_, hcol2⟩
  intro q
  rw [hu2, hcanvas, hu1]
  constructor
  · rintro (⟨h1, h2⟩ | ⟨_, h2⟩)
    · exact ⟨Or.inl h1, h2⟩
    · have hin := Reaches_In _ _ _ _ h2
      rw [hrect2, hrect1, ← mem_canvasPoints, hcanvas] at hin
      refine ⟨hin, ?_⟩
      rintro rfl
      exact not_Reaches_self _ _ _ h2
  · rintro ⟨h1 | rfl, h2⟩
    · exact Or.inl ⟨h1, h2⟩
    · right
      constructor
      · rw [Bool.eq_false_iff]
        intro h
        rw [hmd, hkeys] at h
        exact hnot h.1
      · have hreach : Reaches s1.img (seedPt 3 3) offsets a := (hm1 a).mp ha
        have := Reaches_symm s1.img s2'.img (seedPt 3 3) a hrect2
          (by rw [hrect1]; decide) hreach
        rw [hseed] at this
        exact this

/-- Two duplicate-free lists with the same members have the same length. -/
theorem length_eq_of_nodup {α : Type} [DecidableEq α] (l1 l2 : List α) (h1 : l1.Nodup)
    (h2 : l2.Nodup) (h : ∀ q, q ∈ l1 ↔ q ∈ l2) : l1.length = l2.length :=
  ((List.perm_ext_iff_of_nodup h1 h2).mpr h).length_eq

/-- On a 3x3 canvas with depth 2 the frontier after the second iteration has 8
members, 7 of them uncoloured. -/
theorem frontier_3_3_counts (srt : SliceSorter) :
    ∃ s, RenderUpTo srt 3 3 2 2 = .ok s ∧ s.trace.length = 2 ∧ s.unfilled.length = 8 ∧
      (s.unfilled.filter fun q => !decide (Coloured s.img q)).length = 7 ∧
      (∀ q, (q ∈ s.unfilled ∧ ¬ Coloured s.img q) ↔ (q ∈ canvasPoints 3 3 ∧ q ∉ s.trace)) := by
  obtain ⟨s1, s2, a, _, h2, _, _, _, _, ha, ht2, hnd, hu2, hc2⟩ := boundary_two_3_3 srt
  have hcn : (canvasPoints 3 3).Nodup := by decide
  have hl8 : ∀ b ∈ seedNeighbours33,
      ((canvasPoints 3 3).filter fun q => decide (q ≠ b)).length = 8 := by decide
  have hl7 : ∀ b ∈ seedNeighbours33,
      ((canvasPoints 3 3).filter fun q => decide (q ∉ [Pt 1 1, b])).length = 7 := by decide
  have hne : a ≠ Pt 1 1 := by
    rintro rfl
    exact absurd ha (by decide)
  have hiff : ∀ q, (q ∈ s2.unfilled ∧ ¬ Coloured s2.img q) ↔
      (q ∈ canvasPoints 3 3 ∧ q ∉ s2.trace) := by
    intro q
    rw [hu2, hc2, ht2]
    constructor
    · rintro ⟨⟨h1, _⟩, h3⟩
      exact ⟨h1, h3⟩
    · rintro ⟨h1, h3⟩
      refine ⟨⟨h1, ?_⟩, h3⟩
      rintro rfl
      exact h3 (by simp)
  refine ⟨s2, h2, by rw [ht2]; rfl, ?_, ?_, hiff⟩
  · rw [← hl8 a ha]
    apply length_eq_of_nodup _ _ hnd (hcn.filter _)
    intro q
    rw [hu2, List.mem_filter]
    simp
  · rw [← hl7 a ha]
    apply length_eq_of_nodup _ _ (hnd.filter _) (hcn.filter _)
    intro q
    rw [List.mem_filter, List.mem_filter]
    have := hiff q
    rw [ht2] at this
    simpa using this

/-! ## The claims C11 to C20 -/

/-- C11: for every colour `Hue` lies in `[0, 360)`; it is 0 when the largest and
the smallest channel coincide, and otherwise it is the red-, green- or
blue-dominant value `60 * ((G-B)/(max-min))`, `60 * (2 + (B-R)/(max-min))` or
`60 * (4 + (R-G)/(max-min))`, raised by 360 when negative. -/
theorem Hue_range (a : NRGBA) :
    0 ≤ Hue a ∧ Hue a < 360 ∧
      (chanMax a = chanMin a → Hue a = 0) ∧
      (chanMax a ≠ chanMin a → chanMax a = a.R →
        Hue a = normalise (60 * (((a.G : ℚ) - a.B) / ((chanMax a : ℚ) - chanMin a)))) ∧
      (chanMax a ≠ chanMin a → chanMax a ≠ a.R → chanMax a = a.G →
        Hue a = normalise (60 * (2 + ((a.B : ℚ) - a.R) / ((chanMax a : ℚ) - chanMin a)))) ∧
      (chanMax a ≠ chanMin a → chanMax a ≠ a.R → chanMax a ≠ a.G →
        Hue a = normalise (60 * (4 + ((a.R : ℚ) - a.G) / ((chanMax a : ℚ) - chanMin a)))) := by
  obtain ⟨b1, b2, b3, b4, b5, b6⟩ := chan_bounds a
  have c1 : (chanMin a : ℚ) ≤ a.R := by exact_mod_cast b1
  have c2 : (a.R : ℚ) ≤ chanMax a := by exact_mod_cast b2
  have c3 : (chanMin a : ℚ) ≤ a.G := by exact_mod_cast b3
  have c4 : (a.G : ℚ) ≤ chanMax a := by exact_mod_cast b4
  have c5 : (chanMin a : ℚ) ≤ a.B := by exact_mod_cast b5
  have c6 : (a.B : ℚ) ≤ chanMax a := by exact_mod_cast b6
  have branches :
      (chanMax a = chanMin a → Hue a = 0) ∧
      (chanMax a ≠ chanMin a → chanMax a = a.R →
        Hue a = normalise (60 * (((a.G : ℚ) - a.B) / ((chanMax a : ℚ) - chanMin a)))) ∧
      (chanMax a ≠ chanMin a → chanMax a ≠ a.R → chanMax a = a.G →
        Hue a = normalise (60 * (2 + ((a.B : ℚ) - a.R) / ((chanMax a : ℚ) - chanMin a)))) ∧
      (chanMax a ≠ chanMin a → chanMax a ≠ a.R → chanMax a ≠ a.G →
        Hue a = normalise (60 * (4 + ((a.R : ℚ) - a.G) / ((chanMax a : ℚ) - chanMin a)))) := by
    refine ⟨?_, ?_, ?_, ?_⟩
    · intro h
      rw [Hue_eq]
      simp [h, normalise]
    · intro h hr
      rw [Hue_eq, if_pos h, if_pos hr, mul_comm]
    · intro h hr hg
      rw [Hue_eq, if_pos h, if_neg hr, if_pos hg, mul_comm]
    · intro h hr hg
      rw [Hue_eq, if_pos h, if_neg hr, if_neg hg, mul_comm]
  refine ⟨?_, ?_, branches⟩
  all_goals
    by_cases h : chanMax a = chanMin a
    · rw [branches.1 h]
      all_goals norm_num
    · have hlt : chanMin a < chanMax a := lt_of_le_of_ne (by omega) (Ne.symm h)
      have hd : (0 : ℚ) < (chanMax a : ℚ) - chanMin a := by
        have : (chanMin a : ℚ) < chanMax a := by exact_mod_cast hlt
        linarith
      by_cases hr : chanMax a = a.R
      · rw [branches.2.1 h hr]
        obtain ⟨f1, f2⟩ := frac_bounds ((a.G : ℚ) - a.B) _ hd (by linarith) (by linarith)
        have := normalise_range 0 _ (Or.inl rfl) f1 f2
        rw [zero_add, mul_comm] at this
        first | exact this.1 | exact this.2
      · by_cases hg : chanMax a = a.G
        · rw [branches.2.2.1 h hr hg]
          obtain ⟨f1, f2⟩ := frac_bounds ((a.B : ℚ) - a.R) _ hd (by linarith) (by linarith)
          have := normalise_range 2 _ (Or.inr (Or.inl rfl)) f1 f2
          rw [mul_comm] at this
          first | exact this.1 | exact this.2
        · rw [branches.2.2.2 h hr hg]
          obtain ⟨f1, f2⟩ := frac_bounds ((a.R : ℚ) - a.G) _ hd (by linarith) (by linarith)
          have := normalise_range 4 _ (Or.inr (Or.inr rfl)) f1 f2
          rw [mul_comm] at this
          first | exact this.1 | exact this.2

/-- C12 (counterexample): on a 4x1 canvas whose cell `(2,0)` holds black and
whose other cells are still uncoloured, `ColourFitness` of red at the in-bounds
point `(1,0)` is 130050: the uncoloured neighbour `(0,0)` adds
`ColourDiff(red, zero colour) = 65025` to the 65025 of the coloured neighbour.
The sum over the coloured neighbours alone is 65025. -/
theorem ColourFitness_counts_uncoloured :
    (Pt 1 0).In ((NewNRGBA (Rect 0 0 4 1)).SetNRGBA 2 0 ⟨0, 0, 0, 255⟩).Rect = true ∧
      ¬ Coloured ((NewNRGBA (Rect 0 0 4 1)).SetNRGBA 2 0 ⟨0, 0, 0, 255⟩) (Pt 0 0) ∧
      ColourFitness ((NewNRGBA (Rect 0 0 4 1)).SetNRGBA 2 0 ⟨0, 0, 0, 255⟩)
        ⟨255, 0, 0, 255⟩ (Pt 1 0) = 130050 ∧
      fitnessOverColoured ((NewNRGBA (Rect 0 0 4 1)).SetNRGBA 2 0 ⟨0, 0, 0, 255⟩)
        ⟨255, 0, 0, 255⟩ (Pt 1 0) = 65025 := by
  decide

/-- C12 (amended): `ColourFitness(c, p)` is the sum of `ColourDiff(c, ·)` over
the cells of all in-bounds neighbours of `p`, coloured or not; out-of-bounds
neighbours add nothing, and a neighbour that still holds the zero colour adds
`c.R² + c.G² + c.B²`. -/
theorem ColourFitness_sums_in_bounds (img : Image) (c : NRGBA) (p : Point) :
    ColourFitness img c p =
        (((neighbours p).filter fun q => q.In img.Rect).map
          fun q => ColourDiff c (img.NRGBAAt q.X q.Y)).sum ∧
      (c.Valid → ColourDiff c NRGBA.zero = (c.R : Int) ^ 2 + (c.G : Int) ^ 2 + (c.B : Int) ^ 2) := by
  refine ⟨ColourFitness_eq_sum img c p, ?_⟩
  intro hv
  have h := ColourDiff_eq_sumSquaredDiff_of_le c NRGBA.zero hv (Nat.zero_le _) (Nat.zero_le _)
    (Nat.zero_le _)
  rw [h]
  simp [sumSquaredDiff, NRGBA.zero]

/-- C13 (code at the failing input): on a 3x3 canvas with depth 2, whatever
`sort.Slice` does with ties, the seed `(1,1)` is selected and coloured by
iteration 0 and is then outside the frontier; the expansion of iteration 1
inserts it again, so that after iteration 1 the coloured seed is a member of
`unfilled` and a key of `unfilled_map`. -/
theorem coloured_seed_reenters (srt : SliceSorter) :
    ∃ s1 s2, RenderUpTo srt 3 3 2 1 = .ok s1 ∧ RenderUpTo srt 3 3 2 2 = .ok s2 ∧
      s1.trace = [Pt 1 1] ∧ Coloured s1.img (Pt 1 1) ∧ Pt 1 1 ∉ s1.unfilled ∧
      mapHas s1.unfilled_map (Pt 1 1) = false ∧
      Pt 1 1 ∈ s2.unfilled ∧ mapHas s2.unfilled_map (Pt 1 1) = true ∧
      Coloured s2.img (Pt 1 1) := by
  obtain ⟨s1, s2, a, h1, h2, ht1, hu1, hk1, hc1, ha, ht2, _, hu2, hc2⟩ := boundary_two_3_3 srt
  obtain ⟨_, s2', _, _, _, h2', hinv2, _, _⟩ :=
    RenderUpTo_boundary srt 3 3 2 2 (by decide) (by decide) (by decide) (by decide)
  rw [h2] at h2'
  have hss : s2 = s2' := by
    injection h2'
  subst hss
  have hnot : Pt 1 1 ∉ seedNeighbours33 := by decide
  have hin2 : Pt 1 1 ∈ s2.unfilled := by
    rw [hu2]
    refine ⟨by decide, ?_⟩
    rintro rfl
    exact hnot ha
  refine ⟨s1, s2, h1, h2, ht1, (hc1 _).mpr (by rw [ht1]; simp), by rw [hu1]; exact hnot,
    ?_, hin2, (hinv2.agree _).mp hin2, (hc2 _).mpr (by rw [ht2]; simp)⟩
  rw [Bool.eq_false_iff]
  intro h
  exact hnot ((hk1 _).mp h)

/-- C14: at every iteration `i` within the palette, the point `p` that is
written belongs to the frontier whenever the frontier is not empty, and then
no frontier point has a larger `ColourFitness` for `palette[i]` on the current
canvas. -/
theorem selected_has_max_fitness (srt : SliceSorter) (x y d i : Nat) (hx : 0 < x)
    (hy : 0 < y) (hd : d ≠ 1) (hi : i + 1 ≤ (d + 1) ^ 3) :
    ∃ pal c s s' p, colour_list srt d = some pal ∧ pal[i]? = some c ∧
      RenderUpTo srt x y d i = .ok s ∧ RenderUpTo srt x y d (i + 1) = .ok s' ∧
      s'.trace = s.trace ++ [p] ∧ s'.img = s.img.SetNRGBA p.X p.Y c ∧
      (s.unfilled ≠ [] → p ∈ s.unfilled ∧
        ∀ q ∈ s.unfilled, ColourFitness s.img c q ≤ ColourFitness s.img c p) := by
  obtain ⟨pal, s, hpal, hlen, hg, hr, _, _, _⟩ :=
    RenderUpTo_boundary srt x y d i hx hy hd (by omega)
  obtain ⟨pal', s', hpal', _, hg', hr', _, _, _⟩ :=
    RenderUpTo_boundary srt x y d (i + 1) hx hy hd hi
  rw [hpal] at hpal'
  have hpp : pal = pal' := Option.some.inj hpal'
  subst hpp
  have hc : pal[i]? = some pal[i] := List.getElem?_eq_getElem (by omega)
  rw [growth_succ, hg, Option.some_bind, iteration_eq_stepWith srt pal _ i s _ hc] at hg'
  obtain ⟨p, himg, htr, _, hp⟩ := stepWith_writes pal[i] (seedPt x y) s
    (srt.sort (fitnessMore s.img pal[i]) s.unfilled)
  rw [Option.some.inj hg'] at himg htr
  refine ⟨pal, pal[i], s, s', p, hpal, hc, hr, hr', htr, himg, ?_⟩
  intro hne
  rw [hp hne]
  exact sorted_head_max srt s.img pal[i] s.unfilled (seedPt x y) hne

/-- C14, at the second iteration of a 3x3 canvas with depth 2. -/
theorem selected_has_max_fitness_witness :
    0 < 3 ∧ (2 : Nat) ≠ 1 ∧ 1 + 1 ≤ (2 + 1) ^ 3 ∧
      ∃ pal c s s' p, colour_list stableSorter 2 = some pal ∧ pal[1]? = some c ∧
        RenderUpTo stableSorter 3 3 2 1 = .ok s ∧
        RenderUpTo stableSorter 3 3 2 (1 + 1) = .ok s' ∧
        s'.trace = s.trace ++ [p] ∧ s'.img = s.img.SetNRGBA p.X p.Y c ∧
        (s.unfilled ≠ [] → p ∈ s.unfilled ∧
          ∀ q ∈ s.unfilled, ColourFitness s.img c q ≤ ColourFitness s.img c p) :=
  ⟨by decide, by decide, by decide,
    selected_has_max_fitness stableSorter 3 3 2 1 (by decide) (by decide) (by decide)
      (by decide)⟩

/-- C15: for every canvas with `x, y > 0` and every palette with a first colour
`c`, the loop starts with an empty frontier, and its first iteration writes `c`
to the seed `(x/2, y/2)` and to no other cell and leaves the frontier (slice
and map) holding exactly the in-bounds neighbours of the seed, each once; on a
3x3 canvas the seed is `(1,1)` and the frontier is its eight neighbours. -/
theorem first_iteration_writes_seed (srt : SliceSorter) (pal : List NRGBA) (x y : Nat)
    (c : NRGBA) (hx : 0 < x) (hy : 0 < y) (hc : pal[0]? = some c) :
    (initState x y).unfilled = [] ∧
      seedPt x y = Pt ((x / 2 : Nat) : Int) ((y / 2 : Nat) : Int) ∧
      ∃ s, growth srt pal (seedPt x y) (initState x y) 1 = some s ∧
        s.trace = [seedPt x y] ∧
        s.img.NRGBAAt (seedPt x y).X (seedPt x y).Y = c ∧
        (∀ q : Point, q ≠ seedPt x y → s.img.NRGBAAt q.X q.Y = NRGBA.zero) ∧
        s.unfilled.Nodup ∧
        (∀ q, q ∈ s.unfilled ↔ Reaches s.img (seedPt x y) offsets q) ∧
        (∀ q, mapHas s.unfilled_map q = true ↔ Reaches s.img (seedPt x y) offsets q) ∧
        (x = 3 → y = 3 → seedPt x y = Pt 1 1 ∧ s.unfilled = seedNeighbours33) := by
  obtain ⟨s, hg, ht, _, hseed, hother, hnd, hm, hk, hu⟩ :=
    first_boundary srt pal x y c hx hy hc
  refine ⟨rfl, rfl, s, hg, ht, hseed, hother, hnd, hm, hk, ?_⟩
  rintro rfl rfl
  exact ⟨by decide, by rw [hu, seedNeighbours33_eq]⟩

/-- C15, at a 3x3 canvas with the palette of depth 2. -/
theorem first_iteration_writes_seed_witness :
    0 < 3 ∧ stablePalette2[0]? = some ⟨0, 0, 0, 255⟩ ∧
      (initState 3 3).unfilled = [] ∧
      seedPt 3 3 = Pt ((3 / 2 : Nat) : Int) ((3 / 2 : Nat) : Int) ∧
      ∃ s, growth stableSorter stablePalette2 (seedPt 3 3) (initState 3 3) 1 = some s ∧
        s.trace = [seedPt 3 3] ∧
        s.img.NRGBAAt (seedPt 3 3).X (seedPt 3 3).Y = ⟨0, 0, 0, 255⟩ ∧
        (∀ q : Point, q ≠ seedPt 3 3 → s.img.NRGBAAt q.X q.Y = NRGBA.zero) ∧
        s.unfilled.Nodup ∧
        (∀ q, q ∈ s.unfilled ↔ Reaches s.img (seedPt 3 3) offsets q) ∧
        (∀ q, mapHas s.unfilled_map q = true ↔ Reaches s.img (seedPt 3 3) offsets q) ∧
        (3 = 3 → 3 = 3 → seedPt 3 3 = Pt 1 1 ∧ s.unfilled = seedNeighbours33) :=
  ⟨by decide, rfl,
    first_iteration_writes_seed stableSorter stablePalette2 3 3 ⟨0, 0, 0, 255⟩ (by decide)
      (by decide) rfl⟩

/-- C16: at every iteration boundary of `Render` on a canvas with `x, y > 0`,
every point written so far and every frontier point is in-bounds; the loop body
of `ColourFitness` adds nothing for an out-of-bounds neighbour and reads the
pixel of an in-bounds one inside `Pix`; and the expansion appends only in-bounds
points. -/
theorem loop_stays_in_bounds (srt : SliceSorter) (x y d n : Nat) (hx : 0 < x) (hy : 0 < y)
    (hd : d ≠ 1) (hn : n ≤ (d + 1) ^ 3) :
    ∃ s, RenderUpTo srt x y d n = .ok s ∧ s.img.Rect = Rect 0 0 x y ∧
      (∀ p ∈ s.trace, p.In s.img.Rect = true) ∧
      (∀ q ∈ s.unfilled, q.In s.img.Rect = true) ∧
      (∀ (c : NRGBA) (p : Point), ColourFitness s.img c p =
        offsets.foldl (fitnessStep s.img c p) 0) ∧
      (∀ (c : NRGBA) (p : Point) (diff : Int) (xy : Int × Int),
        (p.Add (Pt xy.1 xy.2)).In s.img.Rect = false → fitnessStep s.img c p diff xy = diff) ∧
      (∀ q : Point, q.In s.img.Rect = true → s.img.PixOffset q.X q.Y < s.img.Pix.length) ∧
      (∀ (p : Point) (u : List Point) (m : PointMap) (q : Point),
        q ∈ (expand s.img p u m).1 → q ∈ u ∨ q.In s.img.Rect = true) := by
  obtain ⟨pal, s, _, _, _, hr, hinv, _, _⟩ := RenderUpTo_boundary srt x y d n hx hy hd hn
  refine ⟨s, hr, hinv.sized.1, hinv.traceIn, hinv.inBounds, fun c p => rfl, ?_, ?_, ?_⟩
  · intro c p diff xy hout
    unfold fitnessStep
    simp [hout]
  · intro q hq
    exact pixOffset_lt s.img x y q.X q.Y hinv.sized hq
  · intro p u m q hq
    rw [expand_mem] at hq
    rcases hq with hq | ⟨_, hq⟩
    · exact Or.inl hq
    · exact Or.inr (Reaches_In _ _ _ _ hq)

/-- C16, after five iterations on a 3x3 canvas with depth 2. -/
theorem loop_stays_in_bounds_witness :
    0 < 3 ∧ (2 : Nat) ≠ 1 ∧ 5 ≤ (2 + 1) ^ 3 ∧
      ∃ s, RenderUpTo stableSorter 3 3 2 5 = .ok s ∧ s.img.Rect = Rect 0 0 3 3 ∧
        (∀ p ∈ s.trace, p.In s.img.Rect = true) ∧
        (∀ q ∈ s.unfilled, q.In s.img.Rect = true) ∧
        (∀ (c : NRGBA) (p : Point), ColourFitness s.img c p =
          offsets.foldl (fitnessStep s.img c p) 0) ∧
        (∀ (c : NRGBA) (p : Point) (diff : Int) (xy : Int × Int),
          (p.Add (Pt xy.1 xy.2)).In s.img.Rect = false →
            fitnessStep s.img c p diff xy = diff) ∧
        (∀ q : Point, q.In s.img.Rect = true → s.img.PixOffset q.X q.Y < s.img.Pix.length) ∧
        (∀ (p : Point) (u : List Point) (m : PointMap) (q : Point),
          q ∈ (expand s.img p u m).1 → q ∈ u ∨ q.In s.img.Rect = true) :=
  ⟨by decide, by decide, by decide,
    loop_stays_in_bounds stableSorter 3 3 2 5 (by decide) (by decide) (by decide) (by decide)⟩

/-- C17: at every iteration boundary of `Render`, `unfilled` holds no point
twice and its members are exactly the keys of `unfilled_map`; and when the
frontier is not empty, the removal step of the next iteration takes exactly the
selected point (the head of the sorted slice) out of the slice and out of the
map, every other member staying in both. -/
theorem frontier_halves_agree (srt : SliceSorter) (x y d n : Nat) (hx : 0 < x) (hy : 0 < y)
    (hd : d ≠ 1) (hn : n ≤ (d + 1) ^ 3) :
    ∃ s, RenderUpTo srt x y d n = .ok s ∧ s.unfilled.Nodup ∧
      (∀ q, q ∈ s.unfilled ↔ mapHas s.unfilled_map q = true) ∧
      (∀ c : NRGBA, s.unfilled ≠ [] →
        (discardFirst (srt.sort (fitnessMore s.img c) s.unfilled)).Nodup ∧
        (∀ q, q ∈ discardFirst (srt.sort (fitnessMore s.img c) s.unfilled) ↔
          q ∈ s.unfilled ∧
            q ≠ (srt.sort (fitnessMore s.img c) s.unfilled).headD (seedPt x y)) ∧
        (∀ q, mapHas (mapDelete s.unfilled_map
            ((srt.sort (fitnessMore s.img c) s.unfilled).headD (seedPt x y))) q = true ↔
          mapHas s.unfilled_map q = true ∧
            q ≠ (srt.sort (fitnessMore s.img c) s.unfilled).headD (seedPt x y))) := by
  obtain ⟨pal, s, _, _, _, hr, hinv, _, _⟩ := RenderUpTo_boundary srt x y d n hx hy hd hn
  refine ⟨s, hr, hinv.nodup, hinv.agree, ?_⟩
  intro c hne
  obtain ⟨_, a, _, ha, _, _, _, _, h1, h2, h3, _, _⟩ :=
    iteration_grow_spec srt [c] (seedPt x y) 0 s c rfl hne hinv.nodup
  rw [← ha]
  exact ⟨h1, h2, h3⟩

/-- C17, after five iterations on a 3x3 canvas with depth 2. -/
theorem frontier_halves_agree_witness :
    0 < 3 ∧ (2 : Nat) ≠ 1 ∧ 5 ≤ (2 + 1) ^ 3 ∧
      ∃ s, RenderUpTo stableSorter 3 3 2 5 = .ok s ∧ s.unfilled.Nodup ∧
        (∀ q, q ∈ s.unfilled ↔ mapHas s.unfilled_map q = true) ∧
        (∀ c : NRGBA, s.unfilled ≠ [] →
          (discardFirst (stableSorter.sort (fitnessMore s.img c) s.unfilled)).Nodup ∧
          (∀ q, q ∈ discardFirst (stableSorter.sort (fitnessMore s.img c) s.unfilled) ↔
            q ∈ s.unfilled ∧
              q ≠ (stableSorter.sort (fitnessMore s.img c) s.unfilled).headD (seedPt 3 3)) ∧
          (∀ q, mapHas (mapDelete s.unfilled_map
              ((stableSorter.sort (fitnessMore s.img c) s.unfilled).headD (seedPt 3 3))) q =
                true ↔
            mapHas s.unfilled_map q = true ∧
              q ≠ (stableSorter.sort (fitnessMore s.img c) s.unfilled).headD (seedPt 3 3))) :=
  ⟨by decide, by decide, by decide,
    frontier_halves_agree stableSorter 3 3 2 5 (by decide) (by decide) (by decide) (by decide)⟩

/-- C18 (counterexample): on a 3x3 canvas with depth 2, under no `sort.Slice`
does the frontier hold 6 points after iteration 1; it holds 8. -/
theorem frontier_3_3_not_six :
    ¬ ∃ srt : SliceSorter, ∃ s, RenderUpTo srt 3 3 2 2 = .ok s ∧ s.unfilled.length = 6 := by
  rintro ⟨srt, s, hs, h6⟩
  obtain ⟨s', hs', _, h8, _, _⟩ := frontier_3_3_counts srt
  rw [hs] at hs'
  have hss : s = s' := by
    injection hs'
  subst hss
  rw [h8] at h6
  exact absurd h6 (by decide)

/-- C18 (amended): on a 3x3 canvas with depth 2, whichever frontier point the
second iteration selects, the frontier afterwards holds exactly 7 uncoloured
points: the cells of the canvas that have not been written. -/
theorem frontier_3_3_seven_uncoloured (srt : SliceSorter) :
    ∃ s, RenderUpTo srt 3 3 2 2 = .ok s ∧ s.trace.length = 2 ∧
      (s.unfilled.filter fun q => !decide (Coloured s.img q)).length = 7 ∧
      (∀ q, (q ∈ s.unfilled ∧ ¬ Coloured s.img q) ↔ (q ∈ canvasPoints 3 3 ∧ q ∉ s.trace)) := by
  obtain ⟨s, hs, h2, _, h7, hiff⟩ := frontier_3_3_counts srt
  exact ⟨s, hs, h2, h7, hiff⟩

/-- C19: at every iteration boundary of `Render`, the coloured cells are the
written points, and every in-bounds cell that has not been written and has a
written neighbour is a member of `unfilled` and a key of `unfilled_map`. -/
theorem frontier_complete (srt : SliceSorter) (x y d n : Nat) (hx : 0 < x) (hy : 0 < y)
    (hd : d ≠ 1) (hn : n ≤ (d + 1) ^ 3) :
    ∃ s, RenderUpTo srt x y d n = .ok s ∧ (∀ q, Coloured s.img q ↔ q ∈ s.trace) ∧
      ∀ q : Point, q.In s.img.Rect = true → q ∉ s.trace →
        (∃ w ∈ s.trace, Reaches s.img w offsets q) →
          q ∈ s.unfilled ∧ mapHas s.unfilled_map q = true := by
  obtain ⟨pal, s, _, _, _, hr, hinv, _, hcol⟩ := RenderUpTo_boundary srt x y d n hx hy hd hn
  refine ⟨s, hr, hcol, ?_⟩
  rintro q _ hnot ⟨w, hw, hreach⟩
  rcases hinv.complete w hw q hreach with h | h
  · exact ⟨(hinv.agree q).mpr h, h⟩
  · exact absurd h hnot

/-- C19, after five iterations on a 3x3 canvas with depth 2. -/
theorem frontier_complete_witness :
    0 < 3 ∧ (2 : Nat) ≠ 1 ∧ 5 ≤ (2 + 1) ^ 3 ∧
      ∃ s, RenderUpTo stableSorter 3 3 2 5 = .ok s ∧
        (∀ q, Coloured s.img q ↔ q ∈ s.trace) ∧
        ∀ q : Point, q.In s.img.Rect = true → q ∉ s.trace →
          (∃ w ∈ s.trace, Reaches s.img w offsets q) →
            q ∈ s.unfilled ∧ mapHas s.unfilled_map q = true :=
  ⟨by decide, by decide, by decide,
    frontier_complete stableSorter 3 3 2 5 (by decide) (by decide) (by decide) (by decide)⟩

/-- C20: on a canvas of at least two cells the frontier is empty when the loop
starts and not empty at any later iteration boundary, the one after the last
iteration included; so every iteration but the first takes its point from the
frontier and not from the seed branch. -/
theorem frontier_nonempty_after_first (srt : SliceSorter) (x y d n : Nat) (hx : 0 < x)
    (hy : 0 < y) (hxy : 2 ≤ x * y) (hd : d ≠ 1) (hn : n ≤ (d + 1) ^ 3) :
    ∃ s, RenderUpTo srt x y d n = .ok s ∧ (n = 0 → s.unfilled = []) ∧
      (1 ≤ n → s.unfilled ≠ []) ∧
      (1 ≤ n → n < (d + 1) ^ 3 → ∃ s' p, RenderUpTo srt x y d (n + 1) = .ok s' ∧
        s'.trace = s.trace ++ [p] ∧ p ∈ s.unfilled) ∧
      (n = x * y → Render srt x y d = .ok s ∧ s.unfilled ≠ []) := by
  obtain ⟨pal, s, hpal, hlen, hg, hr, hinv, htl, _⟩ :=
    RenderUpTo_boundary srt x y d n hx hy hd hn
  have hne : 1 ≤ n → s.unfilled ≠ [] := by
    intro h1
    apply hinv.nonempty _ hxy
    intro h
    rw [h] at htl
    simp at htl
    omega
  refine ⟨s, hr, ?_, hne, ?_, ?_⟩
  · rintro rfl
    have : some (initState x y) = some s := hg
    rw [← Option.some.inj this]
    rfl
  · intro h1 hlt
    obtain ⟨pal', s', hpal', _, hg', hr', _, _, _⟩ :=
      RenderUpTo_boundary srt x y d (n + 1) hx hy hd (by omega)
    rw [hpal] at hpal'
    have hpp : pal = pal' := Option.some.inj hpal'
    subst hpp
    have hc : pal[n]? = some pal[n] := List.getElem?_eq_getElem (by omega)
    obtain ⟨s'', a, hit, _, ha, _, ht, _⟩ :=
      iteration_grow_spec srt pal (seedPt x y) n s pal[n] hc (hne h1) hinv.nodup
    rw [growth_succ, hg, Option.some_bind, hit] at hg'
    rw [Option.some.inj hg'] at ht
    exact ⟨s', a, hr', ht, ha⟩
  · intro hnxy
    refine ⟨?_, hne (by omega)⟩
    unfold Render
    rw [← hnxy]
    exact hr

/-- C20, after all nine iterations on a 3x3 canvas with depth 2. -/
theorem frontier_nonempty_after_first_witness :
    0 < 3 ∧ 2 ≤ 3 * 3 ∧ (2 : Nat) ≠ 1 ∧ 9 ≤ (2 + 1) ^ 3 ∧
      ∃ s, RenderUpTo stableSorter 3 3 2 9 = .ok s ∧ (9 = 0 → s.unfilled = []) ∧
        (1 ≤ 9 → s.unfilled ≠ []) ∧
        (1 ≤ 9 → 9 < (2 + 1) ^ 3 → ∃ s' p, RenderUpTo stableSorter 3 3 2 (9 + 1) = .ok s' ∧
          s'.trace = s.trace ++ [p] ∧ p ∈ s.unfilled) ∧
        (9 = 3 * 3 → Render stableSorter 3 3 2 = .ok s ∧ s.unfilled ≠ []) :=
  ⟨by decide, by decide, by decide, by decide,
    frontier_nonempty_after_first stableSorter 3 3 2 9 (by decide) (by decide) (by decide)
      (by decide) (by decide)⟩

end RbSmoke
